import Mathlib

/-!
Verification of the news-dashboard ingestion and metadata-extraction pipeline.

This file gives a shallow embedding, in Lean 4, of the pure core of the
TypeScript sources:

  * `src/lib/sanitize.ts`        — `sanitizeText`, `sanitizeAndTruncate`
  * `src/ingestion/keywords.ts`  — `matchKeywords`
  * `src/lib/url-metadata.ts`    — `normalizeUrl`, `parseMetaTags`, `findMeta`,
    `parseTitle`, `parseCanonical`, `parseJsonLdBlocks`, `findArticleJsonLd`,
    `detectPaywall`, `fetchUrlMetadata`, `makeError`
  * `src/ingestion/adapters/rss.ts` — `extractString`, `parseRssItem`
  * `src/ingestion/index.ts`     — `persistArticles`

JavaScript strings are modelled as Lean `String`/`List Char` (UTF-16 lone
surrogates are not representable; none of the verified inputs produce them).
Regular-expression scans from the source are translated into explicit
left-to-right scanners with the same leftmost-match semantics; the scanners
are written with an explicit fuel argument (always instantiated to more than
the input length) so that they are structurally recursive and evaluate by
kernel reduction.  Network I/O (`fetch`) is modelled by passing the outcome
of the HTTP exchange as an explicit argument; the database is modelled by
explicit state passing.  Code that can throw a runtime `TypeError` is
modelled in `Except`.
-/

-- ═══════════════════════════════════════════════════════════════════════════
-- § JavaScript string primitives
-- ═══════════════════════════════════════════════════════════════════════════

/-- The apostrophe character (code point 39). -/
def aposChar : Char := Char.ofNat 39

/-- Characters matched by the JavaScript regex class `\s` (and removed by
`String.prototype.trim`). -/
def jsWhitespace (c : Char) : Bool :=
  let n := c.toNat
  n = 9 || n = 10 || n = 11 || n = 12 || n = 13 || n = 32 || n = 0xa0 ||
  n = 0x1680 || (0x2000 ≤ n && n ≤ 0x200a) || n = 0x2028 || n = 0x2029 ||
  n = 0x202f || n = 0x205f || n = 0x3000 || n = 0xfeff

/-- Word characters, the JavaScript regex class `\w` = `[A-Za-z0-9_]`. -/
def jsWordChar (c : Char) : Bool :=
  (('a' ≤ c && c ≤ 'z') || ('A' ≤ c && c ≤ 'Z') || ('0' ≤ c && c ≤ '9') || c = '_')

/-- ASCII decimal digit, the JavaScript regex class `\d`. -/
def jsDigit (c : Char) : Bool := '0' ≤ c && c ≤ '9'

/-- Hex digit as accepted by the source's `/&#x([0-9a-f]+);/gi` (the `i` flag
also admits `A`–`F`). -/
def jsHexDigit (c : Char) : Bool :=
  jsDigit c || ('a' ≤ c && c ≤ 'f') || ('A' ≤ c && c ≤ 'F')

/-- Value of one hex digit. -/
def hexVal (c : Char) : Nat :=
  if jsDigit c then c.toNat - '0'.toNat
  else if 'a' ≤ c && c ≤ 'f' then c.toNat - 'a'.toNat + 10
  else c.toNat - 'A'.toNat + 10

/-- `String.fromCharCode`: the argument is converted with ToUint16
(reduction mod 2^16).  Code points in the surrogate range are not valid Lean
`Char`s; `Char.ofNat` maps them to `'\x00'` (no verified input hits them). -/
def fromCharCode (n : Nat) : Char := Char.ofNat (n % 65536)

/-- Does `need` occur at the start of `hay` (exact character match)? -/
def startsWithL : List Char → List Char → Bool
  | [], _ => true
  | _ :: _, [] => false
  | n :: ns, h :: hs => n = h && startsWithL ns hs

/-- Does `need` occur at the start of `hay`, comparing case-insensitively
(ASCII, as all the scanned literals are ASCII)? -/
def startsWithCI : List Char → List Char → Bool
  | [], _ => true
  | _ :: _, [] => false
  | n :: ns, h :: hs => n.toLower = h.toLower && startsWithCI ns hs

/-- Substring containment on character lists, as in
`String.prototype.includes`. -/
def includesL (hay need : List Char) : Bool :=
  match hay with
  | [] => startsWithL need []
  | _ :: rest => startsWithL need hay || includesL rest need

/-- `hay.includes(need)` on strings. -/
def jsIncludes (hay need : String) : Bool := includesL hay.data need.data

/-- Case-insensitive substring containment (used to model `/literal/i`
searches). -/
def includesCI (hay need : List Char) : Bool :=
  match hay with
  | [] => startsWithCI need []
  | _ :: rest => startsWithCI need hay || includesCI rest need

/-- ASCII lowercasing of a character list. -/
def lowerL (l : List Char) : List Char := l.map Char.toLower

/-- `String.prototype.toLowerCase` (ASCII; all compared data is ASCII). -/
def jsToLower (s : String) : String := ⟨lowerL s.data⟩

/-- Decimal value of a digit string (models `parseInt(s, 10)` on all-digit
input; the double-precision rounding of extremely long inputs is not
modelled). -/
def digitsToNat (ds : List Char) : Nat :=
  ds.foldl (fun acc c => acc * 10 + (c.toNat - '0'.toNat)) 0

/-- Hex value of a hex-digit string (models `parseInt(s, 16)`). -/
def hexToNat (ds : List Char) : Nat :=
  ds.foldl (fun acc c => acc * 16 + hexVal c) 0

-- ═══════════════════════════════════════════════════════════════════════════
-- § src/lib/sanitize.ts
-- ═══════════════════════════════════════════════════════════════════════════

/-- Drop characters through the first `'>'`; `none` when there is no `'>'`.
Models how one match of `/<[^>]*>/` consumes input after its opening `'<'`. -/
def splitAfterGt (cs : List Char) : Option (List Char) :=
  match cs.dropWhile (fun c => c ≠ '>') with
  | [] => none
  | _ :: r => some r

/-- `input.replace(/<[^>]*>/g, "")`, with fuel: each leftmost `'<'` that has
a later `'>'` starts a tag reaching to the first subsequent `'>'`, which is
removed; a `'<'` with no later `'>'` matches nothing, and then no later
position can match either, so the rest of the input is kept verbatim. -/
def stripTagsF : Nat → List Char → List Char
  | 0, cs => cs
  | _ + 1, [] => []
  | fuel + 1, c :: rest =>
    if c = '<' then
      match splitAfterGt rest with
      | some rest2 => stripTagsF fuel rest2
      | none => c :: rest
    else c :: stripTagsF fuel rest

def stripTagsL (cs : List Char) : List Char := stripTagsF (cs.length + 1) cs

/-- The name → replacement map `ENTITY_MAP`, in the alternation order of the
regex `/&(?:amp|lt|gt|quot|apos|nbsp|#039|#39);/gi`.  The regex matches the
entity names case-insensitively and replaces by
`ENTITY_MAP[m.toLowerCase()]`. -/
def entityAlts : List (List Char × Char) :=
  [("&amp;".data, '&'), ("&lt;".data, '<'), ("&gt;".data, '>'),
   ("&quot;".data, '"'), ("&apos;".data, aposChar), ("&nbsp;".data, ' '),
   ("&#039;".data, aposChar), ("&#39;".data, aposChar)]

/-- Try each alternative at the current position; on success return the
replacement character and the remaining input. -/
def tryEntityAlts : List (List Char × Char) → List Char → Option (Char × List Char)
  | [], _ => none
  | (pat, rep) :: alts, cs =>
    if startsWithCI pat cs then some (rep, cs.drop pat.length)
    else tryEntityAlts alts cs

/-- First pass of `decodeEntities` from `src/lib/sanitize.ts`: the global
case-insensitive alternation replace. -/
def namedEntityPassF : Nat → List Char → List Char
  | 0, cs => cs
  | _ + 1, [] => []
  | fuel + 1, c :: rest =>
    match tryEntityAlts entityAlts (c :: rest) with
    | some (rep, r) => rep :: namedEntityPassF fuel r
    | none => c :: namedEntityPassF fuel rest

/-- Tail after a leading `';'`, if any. -/
def semiTail : List Char → Option (List Char)
  | c :: r => if c = ';' then some r else none
  | [] => none

/-- After a maximal run of `p`-characters, require a `';'` and return what
follows it. -/
def afterSemi (p : Char → Bool) (rest : List Char) : Option (List Char) :=
  semiTail (rest.dropWhile p)

/-- One match attempt of `/&#(\d+);/` at the current position: requires
`'&'`, `'#'`, a maximal nonempty digit run, then `';'`. -/
def tryDecEntity (cs : List Char) : Option (Char × List Char) :=
  match cs with
  | c1 :: c2 :: rest =>
    if c1 = '&' && c2 = '#' && !(rest.takeWhile jsDigit).isEmpty then
      match afterSemi jsDigit rest with
      | some r => some (fromCharCode (digitsToNat (rest.takeWhile jsDigit)), r)
      | none => none
    else none
  | _ => none

/-- Second pass of `decodeEntities`: `.replace(/&#(\d+);/g, ...)`. -/
def decEntityPassF : Nat → List Char → List Char
  | 0, cs => cs
  | _ + 1, [] => []
  | fuel + 1, c :: rest =>
    match tryDecEntity (c :: rest) with
    | some (rep, r) => rep :: decEntityPassF fuel r
    | none => c :: decEntityPassF fuel rest

/-- One match attempt of `/&#x([0-9a-f]+);/i` at the current position. -/
def tryHexEntity (cs : List Char) : Option (Char × List Char) :=
  match cs with
  | c1 :: c2 :: x :: rest =>
    if c1 = '&' && c2 = '#' && (x = 'x' || x = 'X') &&
        !(rest.takeWhile jsHexDigit).isEmpty then
      match afterSemi jsHexDigit rest with
      | some r => some (fromCharCode (hexToNat (rest.takeWhile jsHexDigit)), r)
      | none => none
    else none
  | _ => none

/-- Third pass of `decodeEntities`: `.replace(/&#x([0-9a-f]+);/gi, ...)`. -/
def hexEntityPassF : Nat → List Char → List Char
  | 0, cs => cs
  | _ + 1, [] => []
  | fuel + 1, c :: rest =>
    match tryHexEntity (c :: rest) with
    | some (rep, r) => rep :: hexEntityPassF fuel r
    | none => c :: hexEntityPassF fuel rest

/-- `decodeEntities` from `src/lib/sanitize.ts`: one case-insensitive named
pass, then a decimal character-reference pass, then a hex pass. -/
def decodeEntitiesL (cs : List Char) : List Char :=
  let a := namedEntityPassF (cs.length + 1) cs
  let b := decEntityPassF (a.length + 1) a
  hexEntityPassF (b.length + 1) b

/-- `.replace(/\s+/g, " ")`: each maximal whitespace run becomes one space. -/
def collapseWsF : Nat → List Char → List Char
  | 0, cs => cs
  | _ + 1, [] => []
  | fuel + 1, c :: rest =>
    if jsWhitespace c then ' ' :: collapseWsF fuel (rest.dropWhile jsWhitespace)
    else c :: collapseWsF fuel rest

def collapseWs (cs : List Char) : List Char := collapseWsF (cs.length + 1) cs

/-- `String.prototype.trim`. -/
def jsTrim (cs : List Char) : List Char :=
  ((cs.dropWhile jsWhitespace).reverse.dropWhile jsWhitespace).reverse

/-- `sanitizeText` from `src/lib/sanitize.ts`:
`if (!input) return ""` then strip tags, decode entities, collapse
whitespace, trim. -/
def sanitizeText (input : String) : String :=
  if input = "" then ""
  else ⟨jsTrim (collapseWs (decodeEntitiesL (stripTagsL input.data)))⟩

/-- The horizontal-ellipsis character `"…"`. -/
def ellipsisChar : Char := Char.ofNat 0x2026

/-- `sanitizeAndTruncate` from `src/lib/sanitize.ts`. -/
def sanitizeAndTruncate (input : String) (maxLength : Nat) : String :=
  let clean := sanitizeText input
  if clean.length ≤ maxLength then clean
  else ⟨jsTrim (clean.data.take maxLength) ++ [ellipsisChar]⟩

-- ═══════════════════════════════════════════════════════════════════════════
-- § src/ingestion/keywords.ts
-- ═══════════════════════════════════════════════════════════════════════════

/-- `matchKeywords` from `src/ingestion/keywords.ts`:
`if (!text || !keywords.length) return [];` then
`keywords.filter((kw) => normalized.includes(kw.toLowerCase()))` over the
lowercased text. -/
def matchKeywords (text : String) (keywords : List String) : List String :=
  if text = "" || keywords.length = 0 then []
  else
    let normalized := jsToLower text
    keywords.filter (fun kw => jsIncludes normalized (jsToLower kw))

/-- `hasKeywordMatch` from `src/ingestion/keywords.ts`. -/
def hasKeywordMatch (text : String) (keywords : List String) : Bool :=
  (matchKeywords text keywords).length > 0

-- ═══════════════════════════════════════════════════════════════════════════
-- § URL model (WHATWG `URL` as used by `normalizeUrl` in src/lib/url-metadata.ts)
-- ═══════════════════════════════════════════════════════════════════════════

/-!
`new URL(...)` / `URLSearchParams` are host primitives; they are modelled by
a structural parser for `scheme://host[/path][?query][#fragment]`.  The model
lowercases scheme and host and defaults an empty path to `/`, as the host
`URL` class does.  Percent and plus encoding, default-port stripping,
dot-segment removal and punycode are not modelled; no verified property
depends on them.
`URLSearchParams` mutation semantics are preserved: the query string is
re-serialized from its parsed pairs only when some `delete` actually fires,
and the `?` is dropped when deletion leaves no pairs.
-/

/-- Characters allowed in a URL scheme after the first (letter) character. -/
def isSchemeChar (c : Char) : Bool :=
  c.isAlpha || jsDigit c || c = '+' || c = '-' || c = '.'

def notDelimHost (c : Char) : Bool := !(c = '/' || c = '?' || c = '#')

def notDelimPath (c : Char) : Bool := !(c = '?' || c = '#')

def notHash (c : Char) : Bool := c ≠ '#'

def notAmp (c : Char) : Bool := c ≠ '&'

def notEqs (c : Char) : Bool := c ≠ '='

structure ParsedUrl where
  scheme : List Char
  host : List Char
  path : List Char
  /-- The raw query string (without the `?`); `none` when there is no `?`. -/
  query : Option (List Char)
  fragment : Option (List Char)
deriving DecidableEq, Repr

/-- Parse an absolute `scheme://host...` URL. -/
def parseUrl (s : String) : Option ParsedUrl :=
  let cs := s.data
  let sch := cs.takeWhile isSchemeChar
  match cs.dropWhile isSchemeChar with
  | ':' :: '/' :: '/' :: rest1 =>
    match sch with
    | [] => none
    | c0 :: _ =>
      if c0.isAlpha then
        let host := rest1.takeWhile notDelimHost
        if host.isEmpty then none
        else
          let rest2 := rest1.dropWhile notDelimHost
          let pathRaw := rest2.takeWhile notDelimPath
          let path := if pathRaw.isEmpty then ['/'] else pathRaw
          match rest2.dropWhile notDelimPath with
          | '?' :: r =>
            match r.dropWhile notHash with
            | '#' :: f => some ⟨lowerL sch, lowerL host, path, some (r.takeWhile notHash), some f⟩
            | _ => some ⟨lowerL sch, lowerL host, path, some (r.takeWhile notHash), none⟩
          | '#' :: f => some ⟨lowerL sch, lowerL host, path, none, some f⟩
          | _ => some ⟨lowerL sch, lowerL host, path, none, none⟩
      else none
  | _ => none

/-- `URL.prototype.toString` for the modelled components. -/
def serializeUrl (p : ParsedUrl) : List Char :=
  p.scheme ++ ':' :: '/' :: '/' :: p.host ++ p.path ++
    (match p.query with | some q => '?' :: q | none => []) ++
    (match p.fragment with | some f => '#' :: f | none => [])

/-- Split a raw query string at `'&'` separators (keeping empty segments;
they are skipped at pair-construction time, as `URLSearchParams` does). -/
def splitOnAmp : List Char → List (List Char)
  | [] => [[]]
  | c :: r =>
    if c = '&' then [] :: splitOnAmp r
    else
      match splitOnAmp r with
      | a :: rest => (c :: a) :: rest
      | [] => [[c]]

/-- The key/value pairs of a raw query string, as `URLSearchParams` parses
them: empty segments are skipped, each segment splits at its first `'='`
(no `'='` means an empty value). -/
def parseQPairs (q : List Char) : List (List Char × List Char) :=
  (splitOnAmp q).filterMap fun seg =>
    if seg.isEmpty then none
    else some (seg.takeWhile notEqs,
      match seg.dropWhile notEqs with
      | _ :: v => v
      | [] => [])

/-- `URLSearchParams.prototype.toString` (modulo percent-encoding, which is
not modelled): `k=v` segments joined by `'&'`. -/
def serializeQPairs : List (List Char × List Char) → List Char
  | [] => []
  | [(k, v)] => k ++ '=' :: v
  | (k, v) :: rest => k ++ '=' :: v ++ '&' :: serializeQPairs rest

/-- The `TRACKING_PARAMS` deny-set from `src/lib/url-metadata.ts`. -/
def TRACKING_PARAMS : List (List Char) :=
  ["utm_source", "utm_medium", "utm_campaign", "utm_content", "utm_term",
   "utm_id", "fbclid", "gclid", "_ga", "_gl", "ref", "mc_cid", "mc_eid",
   "yclid", "msclkid", "igshid", "twclid", "s_kwcid", "hsa_acc", "hsa_cam",
   "hsa_grp", "hsa_ad", "hsa_src", "hsa_tgt", "hsa_kw", "hsa_mt", "hsa_net",
   "hsa_ver"].map String.data

/-- `TRACKING_PARAMS.has(key.toLowerCase())`. -/
def isTrackingKey (k : List Char) : Bool :=
  TRACKING_PARAMS.any fun t => t = lowerL k

/-- `normalizeUrl` from `src/lib/url-metadata.ts`: on parse failure return
the input unchanged; remove the hash; delete every query parameter whose
lowercased key is in the deny-set.  The query string is re-serialized only
when a delete fires (`URLSearchParams` mutation), and the `?` disappears
when no pair survives. -/
def normalizeUrl (rawUrl : String) : String :=
  match parseUrl rawUrl with
  | none => rawUrl
  | some p =>
    let pairs := parseQPairs (p.query.getD [])
    let query2 :=
      if pairs.any (fun kv => isTrackingKey kv.1) then
        let kept := pairs.filter fun kv => !isTrackingKey kv.1
        if kept.isEmpty then none else some (serializeQPairs kept)
      else p.query
    String.mk (serializeUrl { p with query := query2, fragment := none })

-- ═══════════════════════════════════════════════════════════════════════════
-- § Paywall detection (src/lib/url-metadata.ts)
-- ═══════════════════════════════════════════════════════════════════════════

/-!
The `PAYWALL_CLASS_PATTERNS` / `PAYWALL_TEXT_PATTERNS` regexes are encoded in
a small pattern AST whose constructors correspond one-for-one to the regex
constructs the source uses (case-insensitive literals, `\s+`, `\s*`, `\b`,
single-character classes, class repetitions, `(?:...)?,` alternation and
concatenation).  The matcher is a nondeterministic backtracking matcher that
carries the previous character so that `\b` can be decided; `RegExp.test`
corresponds to a match existing at some start position.
-/

inductive Pat where
  | lit (s : List Char)
  | ws1
  | ws0
  | wordB
  | one (f : Char → Bool)
  | star (f : Char → Bool)
  | opt (p : Pat)
  | alt (p q : Pat)
  | seq (p q : Pat)

/-- Consume a case-insensitive literal, tracking the last consumed char. -/
def litConsume : List Char → Option Char → List Char → Option (Option Char × List Char)
  | [], prev, cs => some (prev, cs)
  | _ :: _, _, [] => none
  | n :: ns, _, c :: cs =>
    if n.toLower = c.toLower then litConsume ns (some c) cs else none

/-- All states reachable by consuming one or more chars of an `f`-class run. -/
def classSplits (f : Char → Bool) : Option Char → List Char → List (Option Char × List Char)
  | _, [] => []
  | _, c :: cs => if f c then (some c, cs) :: classSplits f (some c) cs else []

/-- Is the position between `prev` and the head of `cs` a `\b` boundary? -/
def atBoundary (prev : Option Char) (cs : List Char) : Bool :=
  let l := match prev with | some c => jsWordChar c | none => false
  let r := match cs with | c :: _ => jsWordChar c | [] => false
  l != r

/-- Nondeterministic matcher: all states after matching `p` from the given
state. -/
def runPat : Pat → Option Char → List Char → List (Option Char × List Char)
  | .lit s, prev, cs =>
    match litConsume s prev cs with
    | some st => [st]
    | none => []
  | .ws1, prev, cs => classSplits jsWhitespace prev cs
  | .ws0, prev, cs => (prev, cs) :: classSplits jsWhitespace prev cs
  | .wordB, prev, cs => if atBoundary prev cs then [(prev, cs)] else []
  | .one f, _, cs =>
    match cs with
    | c :: r => if f c then [(some c, r)] else []
    | [] => []
  | .star f, prev, cs => (prev, cs) :: classSplits f prev cs
  | .opt p, prev, cs => (prev, cs) :: runPat p prev cs
  | .alt p q, prev, cs => runPat p prev cs ++ runPat q prev cs
  | .seq p q, prev, cs =>
    (runPat p prev cs).flatMap fun st => runPat q st.1 st.2

/-- Concatenation of a nonempty pattern list. -/
def seqL : List Pat → Pat
  | [] => .lit []
  | [p] => p
  | p :: q :: r => .seq p (seqL (q :: r))

/-- Alternation of a nonempty pattern list. -/
def altL : List Pat → Pat
  | [] => .one (fun _ => false)
  | [p] => p
  | p :: q :: r => .alt p (altL (q :: r))

/-- Case-insensitive literal pattern from a string. -/
def litCI (s : String) : Pat := .lit s.data

/-- All start states of a string (position 0, then after each char). -/
def allStarts : Option Char → List Char → List (Option Char × List Char)
  | prev, [] => [(prev, [])]
  | prev, c :: r => (prev, c :: r) :: allStarts (some c) r

/-- `regex.test(s)`: a match exists at some start position. -/
def patTest (p : Pat) (s : String) : Bool :=
  (allStarts none s.data).any fun st => !(runPat p st.1 st.2).isEmpty

/-- `["']` character class. -/
def isQuoteChar (c : Char) : Bool := c = '"' || c = aposChar

/-- `[^"']` character class. -/
def notQuoteChar (c : Char) : Bool := !isQuoteChar c

/-- `[^=>\s]` character class (in the `data-` structural pattern). -/
def notEqGtWs (c : Char) : Bool := !(c = '=' || c = '>' || jsWhitespace c)

/-- `PAYWALL_CLASS_PATTERNS` from `src/lib/url-metadata.ts`. -/
def PAYWALL_CLASS_PATTERNS : List Pat :=
  [seqL [litCI "class", .ws0, litCI "=", .ws0, .one isQuoteChar, .star notQuoteChar,
     .wordB,
     altL [litCI "paywall", litCI "paywalled", litCI "subscription-wall",
       litCI "subscriber-only", litCI "locked-content", litCI "premium-content",
       litCI "gate-content", litCI "metered-paywall", litCI "access-denied"],
     .wordB, .star notQuoteChar, .one isQuoteChar],
   seqL [litCI "id", .ws0, litCI "=", .ws0, .one isQuoteChar, .star notQuoteChar,
     .wordB,
     altL [litCI "paywall", litCI "subscription-wall", litCI "subscriber-only"],
     .wordB, .star notQuoteChar, .one isQuoteChar],
   seqL [litCI "data-",
     altL [litCI "paywall", litCI "premium", litCI "locked", litCI "subscriber"],
     .star notEqGtWs],
   seqL [litCI "aria-label", .ws0, litCI "=", .ws0, .one isQuoteChar,
     .star notQuoteChar, .wordB,
     altL [litCI "subscriber", litCI "paywall", litCI "premium"],
     .wordB, .star notQuoteChar, .one isQuoteChar]]

/-- `PAYWALL_TEXT_PATTERNS` from `src/lib/url-metadata.ts`. -/
def PAYWALL_TEXT_PATTERNS : List Pat :=
  [seqL [litCI "subscriber", .opt (litCI "s"), .ws1, litCI "only"],
   seqL [litCI "subscribe", .ws1, litCI "to", .ws1,
     altL [litCI "continue", litCI "read", litCI "access"]],
   altL [seqL [litCI "already", .ws1, litCI "a", .ws1, litCI "subscriber"],
     seqL [litCI "existing", .ws1, litCI "subscriber"]],
   seqL [litCI "this", .ws1, altL [litCI "article", litCI "content", litCI "story"],
     .ws1, litCI "is", .ws1,
     altL [litCI "for", seqL [litCI "available", .ws1, litCI "to"]],
     .ws1, litCI "subscribers"],
   seqL [altL [seqL [litCI "create", .ws1, litCI "a", .opt (litCI "n"), .ws1,
       litCI "account"],
     seqL [litCI "sign", .ws1, litCI "up"]],
     .ws1, litCI "to", .ws1, altL [litCI "continue", litCI "read", litCI "access"]],
   seqL [altL [litCI "register", seqL [litCI "log", .ws0, litCI "in"],
       seqL [litCI "sign", .ws0, litCI "in"]],
     .ws1, litCI "to", .ws1, altL [litCI "continue", litCI "read", litCI "access"],
     .ws1, litCI "this"],
   seqL [litCI "exclusive", .ws1, litCI "content", .ws1, litCI "for", .ws1,
     altL [litCI "members", litCI "subscribers"]],
   seqL [litCI "start", .ws1, .opt (seqL [litCI "your", .ws1]),
     .opt (seqL [litCI "free", .ws1]), altL [litCI "trial", litCI "subscription"],
     .ws1, litCI "to", .ws1, litCI "read"],
   seqL [litCI "you",
     .alt (.lit (aposChar :: "ve".data)) (seqL [.ws1, litCI "have"]),
     .ws1, litCI "reached", .ws1, .opt (seqL [litCI "your", .ws1]),
     .opt (seqL [litCI "free", .ws1]), altL [litCI "article", litCI "monthly"],
     .ws1, litCI "limit"]]

/-- Number of structural-marker patterns that fire on the HTML. -/
def classHitCount (html : String) : Nat :=
  (PAYWALL_CLASS_PATTERNS.filter fun p => patTest p html).length

/-- Number of textual patterns that fire on the HTML. -/
def textHitCount (html : String) : Nat :=
  (PAYWALL_TEXT_PATTERNS.filter fun p => patTest p html).length

/-- `detectPaywall` from `src/lib/url-metadata.ts`. -/
def detectPaywall (html : String) (statusCode : Nat) : Bool :=
  if statusCode = 401 || statusCode = 403 then true
  else
    let classHits := classHitCount html
    if classHits ≥ 1 then true
    else
      let textHits := textHitCount html
      if textHits ≥ 2 then true
      else if textHits ≥ 1 && classHits ≥ 1 then true
      else false

-- ═══════════════════════════════════════════════════════════════════════════
-- § HTML metadata parsing (src/lib/url-metadata.ts)
-- ═══════════════════════════════════════════════════════════════════════════

/-- `decodeHtmlEntities` from `src/lib/url-metadata.ts` applies chained
case-sensitive literal replaces; this models one such
`.replace(/lit/g, rep)` pass. -/
def replaceLitF (pat : List Char) (rep : Char) : Nat → List Char → List Char
  | 0, cs => cs
  | _ + 1, [] => []
  | fuel + 1, c :: rest =>
    if startsWithL pat (c :: rest) then
      rep :: replaceLitF pat rep fuel ((c :: rest).drop pat.length)
    else c :: replaceLitF pat rep fuel rest

def replaceLit (pat : List Char) (rep : Char) (cs : List Char) : List Char :=
  replaceLitF pat rep (cs.length + 1) cs

/-- `decodeHtmlEntities` from `src/lib/url-metadata.ts`: eight chained
case-sensitive named replaces (in source order, note `&#039;` before
`&apos;` here, unlike `sanitize.ts`), then the decimal pass, then the hex
pass. -/
def decodeHtmlEntities (str : String) : String :=
  let a := replaceLit "&amp;".data '&' str.data
  let b := replaceLit "&lt;".data '<' a
  let c := replaceLit "&gt;".data '>' b
  let d := replaceLit "&quot;".data '"' c
  let e := replaceLit "&#039;".data aposChar d
  let f := replaceLit "&#39;".data aposChar e
  let g := replaceLit "&apos;".data aposChar f
  let h := replaceLit "&nbsp;".data ' ' g
  let i := decEntityPassF (h.length + 1) h
  ⟨hexEntityPassF (i.length + 1) i⟩

/-- A parsed `<meta>` tag: its attribute assignments `attrs[key] = value`
in scan order, keys already lowercased.  Reads take the last assignment,
as on a JavaScript object. -/
def MetaAttrs := List (String × String)
deriving DecidableEq

/-- Read `attrs[key]` (last assignment wins). -/
def getAttr (attrs : MetaAttrs) (k : String) : Option String :=
  match attrs.reverse.find? (fun kv => kv.1 = k) with
  | some kv => some kv.2
  | none => none

/-- `[\w:-]` after the first `\w` of an attribute name. -/
def attrNameChar (c : Char) : Bool := jsWordChar c || c = ':' || c = '-'

/-- One match attempt of the attribute regex
`/(\w[\w:-]*)\s*=\s*(?:"([^"]*?)"|'([^']*?)'|([^\s>]*))/gi` at the current
position; returns the lowercased key, the value and the remainder after the
match. -/
def tryAttr (cs : List Char) : Option ((String × String) × List Char) :=
  match cs with
  | [] => none
  | c :: rest =>
    if jsWordChar c then
      let name : List Char := c :: rest.takeWhile attrNameChar
      let afterName := (rest.dropWhile attrNameChar).dropWhile jsWhitespace
      match afterName with
      | '=' :: afterEq =>
        let v := afterEq.dropWhile jsWhitespace
        let unquoted : (String × String) × List Char :=
          ((⟨lowerL name⟩, ⟨v.takeWhile (fun ch => !(jsWhitespace ch || ch = '>'))⟩),
            v.dropWhile (fun ch => !(jsWhitespace ch || ch = '>')))
        match v with
        | q :: vr =>
          if q = '"' then
            match (vr.dropWhile (fun ch => ch ≠ '"')) with
            | _ :: afterQ => some ((⟨lowerL name⟩, ⟨vr.takeWhile (fun ch => ch ≠ '"')⟩), afterQ)
            | [] => some unquoted
          else if q = aposChar then
            match (vr.dropWhile (fun ch => ch ≠ aposChar)) with
            | _ :: afterQ => some ((⟨lowerL name⟩, ⟨vr.takeWhile (fun ch => ch ≠ aposChar)⟩), afterQ)
            | [] => some unquoted
          else some unquoted
        | [] => some unquoted
      | _ => none
    else none

/-- The global attribute scan over one tag's attribute string. -/
def parseAttrsF : Nat → List Char → MetaAttrs
  | 0, _ => []
  | _ + 1, [] => []
  | fuel + 1, c :: rest =>
    match tryAttr (c :: rest) with
    | some (kv, r) => kv :: parseAttrsF fuel r
    | none => parseAttrsF fuel rest

/-- Remove the optional `(?:\s*\/)?` tail before the closing `>` of a meta
tag: a `'/'` immediately before the `'>'` is dropped together with the
whitespace before it. -/
def stripSelfClose (inner : List Char) : List Char :=
  match inner.reverse with
  | '/' :: r => (r.dropWhile jsWhitespace).reverse
  | _ => inner

/-- `parseMetaTags` from `src/lib/url-metadata.ts`: scan for
`/<meta\b([^>]*?)(?:\s*\/)?>/gi` matches and run the attribute scan on each
captured group. -/
def parseMetaTagsF : Nat → List Char → List MetaAttrs
  | 0, _ => []
  | _ + 1, [] => []
  | fuel + 1, c :: rest =>
    let cs := c :: rest
    let after5 := cs.drop 5
    if startsWithCI "<meta".data cs &&
        (match after5 with | ch :: _ => !jsWordChar ch | [] => true) &&
        !(after5.dropWhile (fun ch => ch ≠ '>')).isEmpty then
      let inner := after5.takeWhile (fun ch => ch ≠ '>')
      let attrs := parseAttrsF ((stripSelfClose inner).length + 1) (stripSelfClose inner)
      match after5.dropWhile (fun ch => ch ≠ '>') with
      | _ :: afterGt => attrs :: parseMetaTagsF fuel afterGt
      | [] => []
    else parseMetaTagsF fuel rest

def parseMetaTags (html : String) : List MetaAttrs :=
  parseMetaTagsF (html.length + 1) html.data

/-- `findMeta` from `src/lib/url-metadata.ts`: for each lookup key in order,
find the first tag whose `property` or `name` equals the lowercased key; if
that tag's `content` is truthy (non-empty), return it trimmed and
entity-decoded, otherwise move to the next lookup key. -/
def findMeta (tags : List MetaAttrs) : List String → Option String
  | [] => none
  | lookup :: rest =>
    let lc := jsToLower lookup
    match tags.find? (fun t => getAttr t "property" = some lc || getAttr t "name" = some lc) with
    | some t =>
      match getAttr t "content" with
      | some content =>
        if content ≠ "" then some (decodeHtmlEntities ⟨jsTrim content.data⟩)
        else findMeta tags rest
      | none => findMeta tags rest
    | none => findMeta tags rest

/-- Split at the first case-insensitive occurrence of `needle`, returning
the part before it and the part after it. -/
def findSubCIF : Nat → List Char → List Char → Option (List Char × List Char)
  | 0, _, _ => none
  | _ + 1, needle, [] => if startsWithCI needle [] then some ([], []) else none
  | fuel + 1, needle, c :: rest =>
    if startsWithCI needle (c :: rest) then some ([], (c :: rest).drop needle.length)
    else
      match findSubCIF fuel needle rest with
      | some (pre, post) => some (c :: pre, post)
      | none => none

/-- The scan of `/<title[^>]*>([\s\S]*?)<\/title>/i`: at each position, a
`<title` followed by a `>` and a later `</title>` yields the lazy group. -/
def parseTitleF : Nat → List Char → Option (List Char)
  | 0, _ => none
  | _ + 1, [] => none
  | fuel + 1, c :: rest =>
    let cs := c :: rest
    if startsWithCI "<title".data cs then
      match cs.drop 6 |>.dropWhile (fun ch => ch ≠ '>') with
      | _ :: afterGt =>
        match findSubCIF (afterGt.length + 1) "</title>".data afterGt with
        | some (content, _) => some content
        | none => parseTitleF fuel rest
      | [] => parseTitleF fuel rest
    else parseTitleF fuel rest

/-- `parseTitle` from `src/lib/url-metadata.ts`:
`decodeHtmlEntities(m[1].trim()) || null`. -/
def parseTitle (html : String) : Option String :=
  match parseTitleF (html.length + 1) html.data with
  | none => none
  | some content =>
    let t := decodeHtmlEntities ⟨jsTrim content⟩
    if t = "" then none else some t

/-- Does `\brel\s*=\s*["']canonical["']` match at this position?  On success
return the remainder after the closing quote. -/
def relCanonicalAt (prev : Option Char) (cs : List Char) : Option (List Char) :=
  if (match prev with | some c => !jsWordChar c | none => true) &&
      startsWithCI "rel".data cs then
    match (cs.drop 3).dropWhile jsWhitespace with
    | '=' :: r2 =>
      match r2.dropWhile jsWhitespace with
      | q :: r4 =>
        if isQuoteChar q && startsWithCI "canonical".data r4 then
          match r4.drop 9 with
          | q2 :: r5 => if isQuoteChar q2 then some r5 else none
          | [] => none
        else none
      | [] => none
    | _ => none
  else none

/-- Does `\bhref\s*=\s*["']([^"']+)["']` match at this position?  On success
return the captured value and the remainder after the closing quote. -/
def hrefValueAt (prev : Option Char) (cs : List Char) :
    Option (List Char × List Char) :=
  if (match prev with | some c => !jsWordChar c | none => true) &&
      startsWithCI "href".data cs then
    match (cs.drop 4).dropWhile jsWhitespace with
    | '=' :: r2 =>
      match r2.dropWhile jsWhitespace with
      | q :: r4 =>
        if isQuoteChar q then
          let val := r4.takeWhile notQuoteChar
          if val.isEmpty then none
          else
            match r4.dropWhile notQuoteChar with
            | _ :: afterQ => some (val, afterQ)
            | [] => none
        else none
      | [] => none
    | _ => none
  else none

/-- Scan a region for the first position where `f` fires, tracking the
previous character for `\b`. -/
def scanForF {α : Type} (f : Option Char → List Char → Option α) :
    Nat → Option Char → List Char → Option α
  | 0, _, _ => none
  | _ + 1, prev, [] => f prev []
  | fuel + 1, prev, c :: rest =>
    match f prev (c :: rest) with
    | some a => some a
    | none => scanForF f fuel (some c) rest

/-- Try the first canonical-link regex
`/<link\b[^>]*\brel\s*=\s*["']canonical["'][^>]*\bhref\s*=\s*["']([^"']+)["']/i`
at a `<link` start: the whole match is `>`-free, so both parts must occur,
in this order, inside the window reaching to the tag's first `>`. -/
def linkRelThenHref (window : List Char) : Option (List Char) :=
  match scanForF relCanonicalAt (window.length + 1) (some 'k') window with
  | some r5 =>
    match scanForF hrefValueAt (r5.length + 1) (some '"') r5 with
    | some (val, _) => some val
    | none => none
  | none => none

/-- Try the second canonical-link regex (href before rel) on a window: a
later `href` can carry the match when an earlier one has no `rel=canonical`
after it (the regex backtracks through `[^>]*`). -/
def linkHrefThenRel (window : List Char) : Option (List Char) :=
  scanForF (fun prev cs =>
      match hrefValueAt prev cs with
      | some (val, afterQ) =>
        match scanForF relCanonicalAt (afterQ.length + 1) (some '"') afterQ with
        | some _ => some val
        | none => none
      | none => none) (window.length + 1) (some 'k') window

/-- One scan over the document for one of the two canonical-link regexes. -/
def parseCanonicalScanF (useRelFirst : Bool) : Nat → Option Char → List Char → Option (List Char)
  | 0, _, _ => none
  | _ + 1, _, [] => none
  | fuel + 1, _, c :: rest =>
    let cs := c :: rest
    if startsWithCI "<link".data cs &&
        (match cs.drop 5 with | ch :: _ => !jsWordChar ch | [] => true) then
      let window := (cs.drop 5).takeWhile (fun ch => ch ≠ '>')
      match (if useRelFirst then linkRelThenHref window else linkHrefThenRel window) with
      | some val => some val
      | none => parseCanonicalScanF useRelFirst fuel (some c) rest
    else parseCanonicalScanF useRelFirst fuel (some c) rest

/-- `parseCanonical` from `src/lib/url-metadata.ts`: first regex (rel before
href), then the fallback regex (href before rel); the captured href value is
trimmed.  Can return the empty string (`m[1].trim()` is not null-checked). -/
def parseCanonical (html : String) : Option String :=
  match parseCanonicalScanF true (html.length + 1) none html.data with
  | some val => some ⟨jsTrim val⟩
  | none =>
    match parseCanonicalScanF false (html.length + 1) none html.data with
    | some val => some ⟨jsTrim val⟩
    | none => none

-- ═══════════════════════════════════════════════════════════════════════════
-- § JSON and JSON-LD (src/lib/url-metadata.ts)
-- ═══════════════════════════════════════════════════════════════════════════

def braceOpen : Char := Char.ofNat 123

def braceClose : Char := Char.ofNat 125

/-- JSON insignificant whitespace. -/
def jsonWs (c : Char) : Bool := c = ' ' || c = '\t' || c = '\n' || c = '\r'

/-- JSON values.  Numbers keep their lexeme: the extraction code only ever
branches on `typeof`, truthiness and string values, never on a numeric
value, so the double conversion is not modelled. -/
inductive Json where
  | null
  | bool (b : Bool)
  | num (lexeme : String)
  | str (s : String)
  | arr (items : List Json)
  | obj (fields : List (String × Json))
deriving Repr

/-- JSON string body (after the opening quote): content and remainder. -/
def jsonStrF : Nat → List Char → Option (List Char × List Char)
  | 0, _ => none
  | _ + 1, [] => none
  | fuel + 1, c :: rest =>
    if c = '"' then some ([], rest)
    else if c = '\\' then
      match rest with
      | e :: rest2 =>
        let cont := fun (ch : Char) (r : List Char) =>
          match jsonStrF fuel r with
          | some (s, r2) => some (ch :: s, r2)
          | none => none
        if e = '"' || e = '\\' || e = '/' then cont e rest2
        else if e = 'b' then cont (Char.ofNat 8) rest2
        else if e = 'f' then cont (Char.ofNat 12) rest2
        else if e = 'n' then cont (Char.ofNat 10) rest2
        else if e = 'r' then cont (Char.ofNat 13) rest2
        else if e = 't' then cont (Char.ofNat 9) rest2
        else if e = 'u' then
          match rest2 with
          | h1 :: h2 :: h3 :: h4 :: rest3 =>
            if jsHexDigit h1 && jsHexDigit h2 && jsHexDigit h3 && jsHexDigit h4 then
              cont (fromCharCode (hexToNat [h1, h2, h3, h4])) rest3
            else none
          | _ => none
        else none
      | [] => none
    else if c.toNat < 32 then none
    else
      match jsonStrF fuel rest with
      | some (s, r2) => some (c :: s, r2)
      | none => none

/-- JSON number lexeme: `-? (0 | [1-9][0-9]*) (\.[0-9]+)? ([eE][+-]?[0-9]+)?`. -/
def jsonNumLex (cs : List Char) : Option (List Char × List Char) :=
  let (sign, cs1) := match cs with
    | '-' :: r => (['-'], r)
    | _ => (([] : List Char), cs)
  match cs1 with
  | [] => none
  | d :: r1 =>
    if d = '0' then
      let intPart : List Char := ['0']
      let rest := r1
      let (frac, rest2) :=
        match rest with
        | '.' :: r2 =>
          if (r2.takeWhile jsDigit).isEmpty then (none, rest)
          else (some ('.' :: r2.takeWhile jsDigit), r2.dropWhile jsDigit)
        | _ => (none, rest)
      match frac, rest2 with
      | none, _ =>
        match rest with
        | '.' :: _ => none
        | _ =>
          match jsonNumExp rest with
          | some (ex, rest3) => some (sign ++ intPart ++ ex, rest3)
          | none => none
      | some f, r =>
        match jsonNumExp r with
        | some (ex, rest3) => some (sign ++ intPart ++ f ++ ex, rest3)
        | none => none
    else if jsDigit d then
      let intPart := d :: r1.takeWhile jsDigit
      let rest := r1.dropWhile jsDigit
      match rest with
      | '.' :: r2 =>
        if (r2.takeWhile jsDigit).isEmpty then none
        else
          match jsonNumExp (r2.dropWhile jsDigit) with
          | some (ex, rest3) =>
            some (sign ++ intPart ++ '.' :: r2.takeWhile jsDigit ++ ex, rest3)
          | none => none
      | _ =>
        match jsonNumExp rest with
        | some (ex, rest3) => some (sign ++ intPart ++ ex, rest3)
        | none => none
    else none
where
  /-- Optional exponent part; fails only on a malformed exponent. -/
  jsonNumExp (cs : List Char) : Option (List Char × List Char) :=
    match cs with
    | e :: r =>
      if e = 'e' || e = 'E' then
        let (sg, r1) := match r with
          | '+' :: rr => (['+'], rr)
          | '-' :: rr => (['-'], rr)
          | _ => (([] : List Char), r)
        if (r1.takeWhile jsDigit).isEmpty then none
        else some (e :: sg ++ r1.takeWhile jsDigit, r1.dropWhile jsDigit)
      else some ([], cs)
    | [] => some ([], cs)

mutual

/-- One JSON value (with leading whitespace), returning the remainder. -/
def jsonValF : Nat → List Char → Option (Json × List Char)
  | 0, _ => none
  | fuel + 1, cs0 =>
    match cs0.dropWhile jsonWs with
    | [] => none
    | c :: rest =>
      if c = braceOpen then jsonObjF fuel rest
      else if c = '[' then jsonArrF fuel rest
      else if c = '"' then
        match jsonStrF (rest.length + 1) rest with
        | some (content, r) => some (.str ⟨content⟩, r)
        | none => none
      else if startsWithL "true".data (c :: rest) then some (.bool true, (c :: rest).drop 4)
      else if startsWithL "false".data (c :: rest) then some (.bool false, (c :: rest).drop 5)
      else if startsWithL "null".data (c :: rest) then some (.null, (c :: rest).drop 4)
      else
        match jsonNumLex (c :: rest) with
        | some (lex, r) => some (.num ⟨lex⟩, r)
        | none => none

/-- Array body after `[`. -/
def jsonArrF : Nat → List Char → Option (Json × List Char)
  | 0, _ => none
  | fuel + 1, cs =>
    match cs.dropWhile jsonWs with
    | ']' :: r => some (.arr [], r)
    | _ =>
      match jsonValF fuel cs with
      | some (v, r) =>
        match jsonArrTailF fuel r with
        | some (vs, r2) => some (.arr (v :: vs), r2)
        | none => none
      | none => none

/-- `, value` repetitions then `]`. -/
def jsonArrTailF : Nat → List Char → Option (List Json × List Char)
  | 0, _ => none
  | fuel + 1, cs =>
    match cs.dropWhile jsonWs with
    | ',' :: r =>
      match jsonValF fuel r with
      | some (v, r2) =>
        match jsonArrTailF fuel r2 with
        | some (vs, r3) => some (v :: vs, r3)
        | none => none
      | none => none
    | ']' :: r => some ([], r)
    | _ => none

/-- Object body after the opening brace. -/
def jsonObjF : Nat → List Char → Option (Json × List Char)
  | 0, _ => none
  | fuel + 1, cs =>
    match cs.dropWhile jsonWs with
    | [] => none
    | c :: r =>
      if c = braceClose then some (.obj [], r)
      else if c = '"' then
        match jsonStrF (r.length + 1) r with
        | some (key, r1) =>
          match r1.dropWhile jsonWs with
          | ':' :: r2 =>
            match jsonValF fuel r2 with
            | some (v, r3) =>
              match jsonObjTailF fuel r3 with
              | some (fs, r4) => some (.obj ((⟨key⟩, v) :: fs), r4)
              | none => none
            | none => none
          | _ => none
        | none => none
      else none

/-- `, "key": value` repetitions then the closing brace. -/
def jsonObjTailF : Nat → List Char → Option (List (String × Json) × List Char)
  | 0, _ => none
  | fuel + 1, cs =>
    match cs.dropWhile jsonWs with
    | [] => none
    | c :: r =>
      if c = ',' then
        match r.dropWhile jsonWs with
        | q :: r0 =>
          if q = '"' then
            match jsonStrF (r0.length + 1) r0 with
            | some (key, r1) =>
              match r1.dropWhile jsonWs with
              | ':' :: r2 =>
                match jsonValF fuel r2 with
                | some (v, r3) =>
                  match jsonObjTailF fuel r3 with
                  | some (fs, r4) => some ((⟨key⟩, v) :: fs, r4)
                  | none => none
                | none => none
              | _ => none
            | none => none
          else none
        | [] => none
      else if c = braceClose then some ([], r)
      else none

end

/-- `JSON.parse`: a whole-input JSON value. -/
def jsJsonParse (s : String) : Option Json :=
  match jsonValF (2 * s.length + 4) s.data with
  | some (v, rest) => if (rest.dropWhile jsonWs).isEmpty then some v else none
  | none => none

/-- Does `type\s*=\s*["']application\/ld\+json["']` (case-insensitively)
match at this position? -/
def typeSpecAt (cs : List Char) : Bool :=
  startsWithCI "type".data cs &&
  (match (cs.drop 4).dropWhile jsWhitespace with
   | '=' :: r2 =>
     match r2.dropWhile jsWhitespace with
     | q :: r4 =>
       isQuoteChar q && startsWithCI "application/ld+json".data r4 &&
       (match r4.drop 19 with | q2 :: _ => isQuoteChar q2 | [] => false)
     | [] => false
   | _ => false)

/-- `parseJsonLdBlocks` from `src/lib/url-metadata.ts`: scan
`/<script[^>]+type\s*=\s*["']application\/ld\+json["'][^>]*>([\s\S]*?)<\/script>/gi`
matches, `JSON.parse` the trimmed body of each block, spread arrays, skip
invalid blocks and continue. -/
def parseJsonLdBlocksF : Nat → List Char → List Json
  | 0, _ => []
  | _ + 1, [] => []
  | fuel + 1, c :: rest =>
    let cs := c :: rest
    let after7 := cs.drop 7
    if startsWithCI "<script".data cs &&
        !(after7.dropWhile (fun ch => ch ≠ '>')).isEmpty &&
        (match after7.takeWhile (fun ch => ch ≠ '>') with
         | [] => false
         | _ :: wrest => wrest.tails.any typeSpecAt) then
      match after7.dropWhile (fun ch => ch ≠ '>') with
      | _ :: afterGt =>
        match findSubCIF (afterGt.length + 1) "</script>".data afterGt with
        | some (content, afterClose) =>
          let items := match jsJsonParse ⟨jsTrim content⟩ with
            | some (.arr xs) => xs
            | some v => [v]
            | none => []
          items ++ parseJsonLdBlocksF fuel afterClose
        | none => parseJsonLdBlocksF fuel rest
      | [] => parseJsonLdBlocksF fuel rest
    else parseJsonLdBlocksF fuel rest

def parseJsonLdBlocks (html : String) : List Json :=
  parseJsonLdBlocksF (html.length + 1) html.data

/-- JavaScript truthiness of a JSON value (`undefined` is modelled as a
missing `Option`). -/
def jsonTruthy : Json → Bool
  | .null => false
  | .bool b => b
  | .num lex =>
    -- a numeric literal is falsy exactly when its value is 0
    !((lex.data.takeWhile (fun c => c ≠ 'e' && c ≠ 'E')).filter jsDigit).all (· = '0')
  | .str s => !(s = "")
  | .arr _ => true
  | .obj _ => true

/-- `typeof x === "object"` (true for objects, arrays and `null`). -/
def jsTypeofObject : Json → Bool
  | .obj _ => true
  | .arr _ => true
  | .null => true
  | _ => false

/-- Property access `x[k]` (last duplicate key wins, as in `JSON.parse`);
`none` models `undefined`. -/
def jsonGet : Json → String → Option Json
  | .obj fields, k =>
    match fields.reverse.find? (fun f => f.1 = k) with
    | some f => some f.2
    | none => none
  | _, _ => none

/-- `k in x` (modelled for the object case; arrays have no string keys). -/
def jsonHasKey (j : Json) (k : String) : Bool := (jsonGet j k).isSome

mutual

/-- `String(x)` (canonical double formatting of numbers is not modelled;
no verified property reads a stringified number). -/
def jsToString : Json → String
  | .str s => s
  | .num lex => lex
  | .bool true => "true"
  | .bool false => "false"
  | .null => "null"
  | .arr xs => ⟨jsToStringList xs⟩
  | .obj _ => "[object Object]"

def jsToStringList : List Json → List Char
  | [] => []
  | [x] => (jsToString x).data
  | x :: y :: r => (jsToString x).data ++ ',' :: jsToStringList (y :: r)

end

/-- The article-like record assembled by `findArticleJsonLd` (its
`datePublished` already carries the `dateModified` fallback). -/
structure JsonLdArticle where
  headline : Option String
  datePublished : Option String
  publisherName : Option String
  authorName : Option String
  image : Option String
deriving Repr, DecidableEq

/-- `ARTICLE_TYPES` from `src/lib/url-metadata.ts`. -/
def ARTICLE_TYPES : List String :=
  ["article", "newsarticle", "reportage", "satiricalarticle",
   "scholarlyarticle", "technicalarticle", "webpage", "webpageelement"]

/-- Field extraction from a matched JSON-LD item. -/
def extractArticleFields (item : Json) : JsonLdArticle :=
  let publisherName : Option String :=
    match jsonGet item "publisher" with
    | some p =>
      if jsTypeofObject p && jsonTruthy p && jsonHasKey p "name" then
        some (jsToString ((jsonGet p "name").getD .null))
      else match p with
        | .str s => some s
        | _ => none
    | none => none
  let authorName : Option String :=
    let firstAuth : Option Json :=
      match jsonGet item "author" with
      | some (.arr xs) => xs.head?
      | some a => some a
      | none => none
    match firstAuth with
    | some fa =>
      if jsTypeofObject fa && jsonTruthy fa && jsonHasKey fa "name" then
        some (jsToString ((jsonGet fa "name").getD .null))
      else match fa with
        | .str s => some s
        | _ => none
    | none => none
  let image : Option String :=
    match jsonGet item "image" with
    | some (.str s) => some s
    | some img =>
      if jsTypeofObject img && jsonTruthy img && jsonHasKey img "url" then
        some (jsToString ((jsonGet img "url").getD .null))
      else none
    | none => none
  { headline :=
      match jsonGet item "headline" with
      | some (.str s) => some s
      | _ => none,
    datePublished :=
      match jsonGet item "datePublished" with
      | some (.str s) => some s
      | _ =>
        match jsonGet item "dateModified" with
        | some (.str s) => some s
        | _ => none,
    publisherName, authorName, image }

/-- The `@graph` flattening loop of `findArticleJsonLd`. -/
def flattenGraph (items : List Json) : List Json :=
  items.flatMap fun item =>
    if !jsTypeofObject item || !jsonTruthy item then []
    else
      match jsonGet item "@graph" with
      | some (.arr g) => g
      | _ => [item]

/-- The search loop of `findArticleJsonLd`.  When `@type` (or its first
array entry) is truthy but not a string, the source calls
`typeStr.toLowerCase()` on a non-string and throws a `TypeError`; that is
modelled as `Except.error`. -/
def findArticleLoop : List Json → Except String (Option JsonLdArticle)
  | [] => .ok none
  | item :: rest =>
    if !jsTypeofObject item || !jsonTruthy item then findArticleLoop rest
    else
      let typeStr : Option Json :=
        match jsonGet item "@type" with
        | some (.arr ts) => ts.head?
        | some t => some t
        | none => none
      match typeStr with
      | none => findArticleLoop rest
      | some tv =>
        if !jsonTruthy tv then findArticleLoop rest
        else
          match tv with
          | .str ts =>
            if ARTICLE_TYPES.contains (jsToLower ts) then .ok (some (extractArticleFields item))
            else findArticleLoop rest
          | _ => .error "TypeError: typeStr.toLowerCase is not a function"

/-- `findArticleJsonLd` from `src/lib/url-metadata.ts`. -/
def findArticleJsonLd (items : List Json) : Except String (Option JsonLdArticle) :=
  findArticleLoop (flattenGraph items)

-- ═══════════════════════════════════════════════════════════════════════════
-- § Date model
-- ═══════════════════════════════════════════════════════════════════════════

/-- Parse `n` decimal digits. -/
def parseDigits (n : Nat) (cs : List Char) : Option (Nat × List Char) :=
  let ds := cs.take n
  if ds.length = n && ds.all jsDigit then some (digitsToNat ds, cs.drop n)
  else none

/-- Model of the host primitive `new Date(string)` validity/ordering,
restricted to ISO-8601 `YYYY-MM-DD` with an optional `THH:MM[:SS[.sss]]`
time and optional trailing `Z`: returns a strictly monotone integer
encoding of the timestamp fields, or `none` when invalid.  The host parser
accepts more formats; no verified property depends on them. -/
def jsDateParse (s : String) : Option Int :=
  match parseDigits 4 s.data with
  | some (y, '-' :: r1) =>
    match parseDigits 2 r1 with
    | some (mo, '-' :: r2) =>
      if 1 ≤ mo && mo ≤ 12 then
        match parseDigits 2 r2 with
        | some (d, r3) =>
          if 1 ≤ d && d ≤ 31 then
            let encode := fun (h mi se ms : Nat) =>
              (Int.ofNat ((((((y * 13 + mo) * 32 + d) * 25 + h) * 61 + mi) * 61 + se) * 1000 + ms))
            match r3 with
            | [] => some (encode 0 0 0 0)
            | 'T' :: r4 =>
              match parseDigits 2 r4 with
              | some (h, ':' :: r5) =>
                if h ≤ 23 then
                  match parseDigits 2 r5 with
                  | some (mi, r6) =>
                    if mi ≤ 59 then
                      match r6 with
                      | [] => some (encode h mi 0 0)
                      | ['Z'] => some (encode h mi 0 0)
                      | ':' :: r7 =>
                        match parseDigits 2 r7 with
                        | some (se, r8) =>
                          if se ≤ 59 then
                            match r8 with
                            | [] => some (encode h mi se 0)
                            | ['Z'] => some (encode h mi se 0)
                            | '.' :: r9 =>
                              match parseDigits 3 r9 with
                              | some (ms, r10) =>
                                match r10 with
                                | [] => some (encode h mi se ms)
                                | ['Z'] => some (encode h mi se ms)
                                | _ => none
                              | _ => none
                            | _ => none
                          else none
                        | _ => none
                      | _ => none
                    else none
                  | _ => none
                else none
              | _ => none
            | _ => none
          else none
        | _ => none
      else none
    | _ => none
  | _ => none

-- ═══════════════════════════════════════════════════════════════════════════
-- § fetchUrlMetadata (src/lib/url-metadata.ts)
-- ═══════════════════════════════════════════════════════════════════════════

/-- `hostname.replace(/^www\./, "")`. -/
def stripWww (host : String) : String :=
  if startsWithL "www.".data host.data then ⟨host.data.drop 4⟩ else host

/-- `domainToOutlet` from `src/lib/url-metadata.ts`. -/
def domainToOutlet (hostname : String) : String := stripWww hostname

/-- Path / query / fragment of a relative reference. -/
def parsePQF (cs : List Char) : List Char × Option (List Char) × Option (List Char) :=
  let path := cs.takeWhile notDelimPath
  match cs.dropWhile notDelimPath with
  | '?' :: r =>
    (path, some (r.takeWhile notHash),
     match r.dropWhile notHash with | '#' :: f => some f | _ => none)
  | '#' :: f => (path, none, some f)
  | _ => (path, none, none)

/-- Model of `new URL(raw, base).toString()`: absolute `raw` wins, else the
reference is resolved against the base (scheme-relative, path-absolute,
query-only, fragment-only or path-relative; dot segments are not
normalized).  `none` models the constructor throwing. -/
def jsUrlResolve (raw base : String) : Option String :=
  match parseUrl raw with
  | some p => some ⟨serializeUrl p⟩
  | none =>
    match parseUrl base with
    | none => none
    | some b =>
      match raw.data with
      | '/' :: '/' :: _ =>
        match parseUrl (⟨b.scheme⟩ ++ ":" ++ raw) with
        | some p => some ⟨serializeUrl p⟩
        | none => none
      | '/' :: _ =>
        let (pa, q, f) := parsePQF raw.data
        some ⟨serializeUrl { b with path := pa, query := q, fragment := f }⟩
      | '?' :: r =>
        let frag := match r.dropWhile notHash with | '#' :: f => some f | _ => none
        some ⟨serializeUrl { b with query := some (r.takeWhile notHash), fragment := frag }⟩
      | '#' :: f => some ⟨serializeUrl { b with fragment := some f }⟩
      | [] => some ⟨serializeUrl b⟩
      | _ =>
        let dir := (b.path.reverse.dropWhile (fun c => c ≠ '/')).reverse
        let (pa, q, f) := parsePQF raw.data
        some ⟨serializeUrl { b with path := dir ++ pa, query := q, fragment := f }⟩

/-- `resolveImageUrl` from `src/lib/url-metadata.ts`. -/
def resolveImageUrl (rawUrl : Option String) (pageUrl : String) : Option String :=
  match rawUrl with
  | none => none
  | some r =>
    if (⟨jsTrim r.data⟩ : String) = "" then none
    else
      match jsUrlResolve ⟨jsTrim r.data⟩ pageUrl with
      | none => none
      | some resolved =>
        if startsWithL "http://".data resolved.data ||
            startsWithL "https://".data resolved.data then some resolved
        else none

/-- The result record of `fetchUrlMetadata` (`publishedAt` uses the integer
date encoding). -/
structure UrlMetadata where
  url : String
  originalUrl : String
  title : Option String
  outlet : Option String
  outletDomain : String
  publishedAt : Option Int
  snippet : Option String
  imageUrl : Option String
  author : Option String
  isPaywalled : Bool
  fetchError : Option String
deriving Repr, DecidableEq

/-- The outcome of the single HTTP exchange `fetchUrlMetadata` performs:
either the `fetch` promise rejected (network error / timeout), or a
response arrived with a status, a `content-type` header value (`""` when
absent) and the body text accumulated under the 5 MB cap. -/
inductive FetchOutcome where
  | netError (isTimeout : Bool) (message : String)
  | response (status : Nat) (contentType : String) (body : String)
deriving Repr

/-- `makeError` from `src/lib/url-metadata.ts`. -/
def makeError (originalUrl url message : String) (outletDomain : Option String)
    (statusCode : Option Nat) : UrlMetadata :=
  let d0 := outletDomain.getD ""
  let domain :=
    if d0 = "" then
      match parseUrl url with
      | some p => stripWww ⟨p.host⟩
      | none => ""
    else d0
  { url := url, originalUrl := originalUrl,
    title := none, outlet := none, outletDomain := domain,
    publishedAt := none, snippet := none, imageUrl := none, author := none,
    isPaywalled := (statusCode = some 401 || statusCode = some 403),
    fetchError := some message }

/-- `ct.split(";")[0].trim()`. -/
def ctMain (ct : String) : String :=
  ⟨jsTrim (ct.data.takeWhile (fun c => c ≠ ';'))⟩

/-- `a ?? b` on nullable strings. -/
def jsNullish (a b : Option String) : Option String :=
  match a with
  | some s => some s
  | none => b

/-- `(o)?.trim() || null`. -/
def trimOrNull (o : Option String) : Option String :=
  match o with
  | some s => if (⟨jsTrim s.data⟩ : String) = "" then none else some ⟨jsTrim s.data⟩
  | none => none

/-- The `publishedAt` candidate loop: skip falsy entries, first entry that
parses as a valid date wins. -/
def firstParsedDate : List (Option String) → Option Int
  | [] => none
  | dc :: rest =>
    match dc with
    | some s =>
      if s = "" then firstParsedDate rest
      else
        match jsDateParse s with
        | some t => some t
        | none => firstParsedDate rest
    | none => firstParsedDate rest

/-- `fetchUrlMetadata` from `src/lib/url-metadata.ts`, with the HTTP
exchange passed in as `outcome`.  `Except.error` models an uncaught runtime
exception escaping the function (the parse phase runs outside any
`try`/`catch`). -/
def fetchUrlMetadata (rawUrl : String) (outcome : FetchOutcome) :
    Except String UrlMetadata :=
  let originalUrl : String := ⟨jsTrim rawUrl.data⟩
  let normalizedUrl := normalizeUrl originalUrl
  match parseUrl normalizedUrl with
  | none => .ok (makeError originalUrl normalizedUrl "Invalid URL" none none)
  | some pu =>
    let outletDomain := stripWww ⟨pu.host⟩
    match outcome with
    | .netError isTimeout msg =>
      .ok (makeError originalUrl normalizedUrl
        (if isTimeout then
          "Request timed out (12s). The site may be slow or blocking bots."
        else msg) (some outletDomain) none)
    | .response statusCode ct body =>
      if !jsIncludes ct "text/html" && !jsIncludes ct "application/xhtml" then
        let friendly :=
          if jsIncludes ct "pdf" then "This URL points to a PDF, not a webpage."
          else if jsIncludes ct "json" then "This URL returns JSON, not a webpage."
          else "Unexpected content type: " ++ ctMain ct
        .ok (makeError originalUrl normalizedUrl friendly (some outletDomain)
          (some statusCode))
      else
        let metaTags := parseMetaTags body
        let jsonLdAll := parseJsonLdBlocks body
        match findArticleJsonLd jsonLdAll with
        | .error e => .error e
        | .ok jsonLd =>
          let ogTitle := findMeta metaTags ["og:title"]
          let ogDescription := findMeta metaTags ["og:description"]
          let ogSiteName := findMeta metaTags ["og:site_name"]
          let ogImage := findMeta metaTags ["og:image", "og:image:secure_url"]
          let ogUrl := findMeta metaTags ["og:url"]
          let twitterTitle := findMeta metaTags ["twitter:title"]
          let twitterDesc := findMeta metaTags ["twitter:description"]
          let twitterImage := findMeta metaTags ["twitter:image", "twitter:image:src"]
          let metaDesc := findMeta metaTags ["description"]
          let canonical := parseCanonical body
          let rawTitle := parseTitle body
          let resolvedUrl :=
            match jsNullish ogUrl canonical with
            | some cand =>
              if cand = "" then normalizedUrl
              else
                match jsUrlResolve cand normalizedUrl with
                | some abs =>
                  if startsWithL "http".data abs.data then normalizeUrl abs
                  else normalizedUrl
                | none => normalizedUrl
            | none => normalizedUrl
          let title := trimOrNull
            (jsNullish (jsonLd.bind (·.headline))
              (jsNullish ogTitle (jsNullish twitterTitle rawTitle)))
          let outlet :=
            let o0 := (jsNullish (jsonLd.bind (·.publisherName))
              (jsNullish ogSiteName (some (domainToOutlet outletDomain)))).getD ""
            let t : String := ⟨jsTrim o0.data⟩
            if t = "" then domainToOutlet outletDomain else t
          let rawSnippet := jsNullish ogDescription (jsNullish twitterDesc metaDesc)
          let snippet :=
            match rawSnippet with
            | some rs =>
              let s2 : String := ⟨(jsTrim (decodeHtmlEntities rs).data).take 500⟩
              if s2 = "" then none else some s2
            | none => none
          let rawImageUrl := jsNullish ogImage
            (jsNullish (jsonLd.bind (·.image)) twitterImage)
          let imageUrl := resolveImageUrl rawImageUrl resolvedUrl
          let author := (jsonLd.bind (·.authorName)).map fun a => (⟨jsTrim a.data⟩ : String)
          let publishedAt := firstParsedDate
            [jsonLd.bind (·.datePublished),
             findMeta metaTags ["article:published_time"],
             findMeta metaTags ["article:modified_time"],
             findMeta metaTags ["date"],
             findMeta metaTags ["pubdate"]]
          let isPaywalled := detectPaywall body statusCode
          .ok
            { url := resolvedUrl, originalUrl := originalUrl, title := title,
              outlet := some outlet, outletDomain := outletDomain,
              publishedAt := publishedAt,
              snippet := (if isPaywalled then none else snippet),
              imageUrl := imageUrl, author := author, isPaywalled := isPaywalled,
              fetchError := none }

-- ═══════════════════════════════════════════════════════════════════════════
-- § RSS adapter (src/ingestion/adapters/rss.ts)
-- ═══════════════════════════════════════════════════════════════════════════

/-- An RSS field value as produced by the XML parser: either a string or a
text-node object `{ "#text": ... }` (key present; `none` models an
undefined `#text` value, handled by the source's `?? ""`). -/
inductive RssVal where
  | str (s : String)
  | textObj (t : Option String)
deriving Repr, DecidableEq

/-- `extractString` from `src/ingestion/adapters/rss.ts`. -/
def extractString : Option RssVal → String
  | none => ""
  | some (.str s) => s
  | some (.textObj (some t)) => t
  | some (.textObj none) => ""

/-- JavaScript `||` falsiness for an RSS field value. -/
def rssFalsy : Option RssVal → Bool
  | none => true
  | some (.str s) => s = ""
  | some (.textObj _) => false

/-- `a || b` on RSS field values. -/
def rssOr (a b : Option RssVal) : Option RssVal := if rssFalsy a then b else a

/-- `a || b` on nullable strings. -/
def stringOr (a b : Option String) : Option String :=
  match a with
  | some s => if s = "" then b else some s
  | none => b

structure RssItem where
  title : Option RssVal
  link : Option String
  description : Option RssVal
  pubDate : Option String
  /-- `dc:date` -/
  dcDate : Option String
  /-- `content:encoded` -/
  contentEncoded : Option String
  /-- `enclosure["@_url"]` -/
  enclosureUrl : Option String
  /-- `enclosure["@_type"]` -/
  enclosureType : Option String
  /-- `media:content["@_url"]` -/
  mediaContentUrl : Option String
  author : Option String
  /-- `dc:creator` -/
  dcCreator : Option String
  guid : Option RssVal
deriving Repr

structure RssFeedConfig where
  name : String
  url : String
  outlet : String
  domain : String
  enabled : Bool
deriving Repr

/-- `RssFetchOptions` (`from`/`to` renamed: `from` is reserved in Lean). -/
structure RssFetchOptions where
  fromDate : Option Int
  toDate : Option Int
  keywords : List String
deriving Repr

/-- `extractImage` from `src/ingestion/adapters/rss.ts`. -/
def extractImage (item : RssItem) : Option String :=
  if (match item.enclosureType with
      | some t => startsWithL "image/".data t.data
      | none => false) then
    item.enclosureUrl
  else
    match item.mediaContentUrl with
    | some u => if u = "" then none else some u
    | none => none

/-- Split a character list at every occurrence of `sep`
(`String.prototype.split`). -/
def splitOnCharL (sep : Char) : List Char → List (List Char)
  | [] => [[]]
  | c :: r =>
    if c = sep then [] :: splitOnCharL sep r
    else
      match splitOnCharL sep r with
      | a :: rest => (c :: a) :: rest
      | [] => [[c]]

/-- The `url` expression of `parseRssItem`:
`url.split("?")[0] + (url.includes("?") ? "?" + url.split("?")[1] : "")`.
Everything after a second `?` is dropped; tracking parameters and fragments
pass through untouched (this is not `normalizeUrl`). -/
def rssUrlRebuild (url : String) : String :=
  let parts := splitOnCharL '?' url.data
  let part0 : List Char := parts.headD []
  if url.data.any (fun c => c = '?') then
    ⟨part0 ++ '?' :: ((parts.drop 1).headD [])⟩
  else ⟨part0⟩

/-- The candidate-article record (`RawArticle` in `src/types/index.ts`). -/
structure RawArticle where
  title : String
  url : String
  outlet : String
  outletDomain : String
  publishedAt : Int
  snippet : Option String
  imageUrl : Option String
  author : Option String
  /-- `IngestSource` tag. -/
  source : String
deriving Repr, DecidableEq

/-- `parseRssItem` from `src/ingestion/adapters/rss.ts`; `now` models the
`new Date()` fallback used when an item has no parseable date field. -/
def parseRssItem (item : RssItem) (config : RssFeedConfig)
    (options : RssFetchOptions) (now : Int) : Option RawArticle :=
  let title := sanitizeText (extractString item.title)
  let url := match extractString (item.link.map .str) with
    | "" => extractString item.guid
    | s => s
  let snippet := sanitizeAndTruncate
    (extractString (rssOr item.description (item.contentEncoded.map .str))) 500
  let author := sanitizeText
    (extractString (rssOr (item.author.map .str) (item.dcCreator.map .str)))
  let pubDateStr := stringOr item.pubDate item.dcDate
  let publishedAt : Option Int :=
    match pubDateStr with
    | some s => if s = "" then some now else jsDateParse s
    | none => some now
  if title = "" || url = "" then none
  else
    match publishedAt with
    | none => none
    | some pa =>
      if (match options.fromDate with | some f => decide (pa < f) | none => false) then none
      else if (match options.toDate with | some t => decide (pa > t) | none => false) then none
      else
        let matched := matchKeywords (title ++ " " ++ snippet) options.keywords
        if matched.length = 0 then none
        else
          some { title := title, url := rssUrlRebuild url, outlet := config.outlet,
                 outletDomain := config.domain, publishedAt := pa,
                 snippet := (if snippet = "" then none else some snippet),
                 imageUrl := extractImage item,
                 author := (if author = "" then none else some author),
                 source := "RSS" }

-- ═══════════════════════════════════════════════════════════════════════════
-- § Persistence (src/ingestion/index.ts, persistArticles)
-- ═══════════════════════════════════════════════════════════════════════════

/-- A persisted `Article` row (fields written by `persistArticles`;
`keywordsMatched` is stored structurally rather than as its
`JSON.stringify` image). -/
structure Article where
  id : Nat
  title : String
  outlet : String
  outletDomain : String
  publishedAt : Int
  url : String
  keywordsMatched : List String
  snippet : Option String
  imageUrl : Option String
  author : Option String
  status : String
  ingestSource : String
  priority : Bool
  tags : String
deriving Repr, DecidableEq

/-- An audit-log row written by `writeAuditLog`. -/
structure AuditEntry where
  articleId : Nat
  action : String
  actorEmail : String
  detailsSource : String
  detailsUrl : String
deriving Repr, DecidableEq

/-- The persistence collaborator's state: the article table (with its
id sequence) and the audit log.  Database operations are modelled as always
succeeding; the per-candidate `try`/`catch` in the source only matters for
persistence failures, which the model does not produce. -/
structure Store where
  articles : List Article
  nextId : Nat
  audit : List AuditEntry
deriving Repr

/-- The counters accumulated by `persistArticles`; `keywordHits` keeps
JavaScript object insertion-order semantics. -/
structure PersistCounters where
  created : Nat
  duped : Nat
  keywordHits : List (String × Nat)
deriving Repr, DecidableEq

/-- `keywordHits[kw] = (keywordHits[kw] ?? 0) + 1`. -/
def bumpHit (hits : List (String × Nat)) (kw : String) : List (String × Nat) :=
  if hits.any (fun h => h.1 = kw) then
    hits.map (fun h => if h.1 = kw then (h.1, h.2 + 1) else h)
  else hits ++ [(kw, 1)]

/-- `prisma.article.findUnique({ where: { url } })`. -/
def findUniqueByUrl (st : Store) (url : String) : Option Article :=
  st.articles.find? (fun a => a.url = url)

/-- One iteration of the `persistArticles` loop. -/
def persistOne (keywords : List String) (st : Store) (acc : PersistCounters)
    (article : RawArticle) : Store × PersistCounters :=
  let matched := matchKeywords (article.title ++ " " ++ article.snippet.getD "") keywords
  match findUniqueByUrl st article.url with
  | some _ => (st, { acc with duped := acc.duped + 1 })
  | none =>
    let newArt : Article :=
      { id := st.nextId, title := article.title, outlet := article.outlet,
        outletDomain := article.outletDomain, publishedAt := article.publishedAt,
        url := article.url, keywordsMatched := matched, snippet := article.snippet,
        imageUrl := article.imageUrl, author := article.author,
        status := "QUEUED", ingestSource := article.source, priority := false,
        tags := "[]" }
    let entry : AuditEntry :=
      { articleId := st.nextId, action := "INGESTED",
        actorEmail := "system@ingestion", detailsSource := article.source,
        detailsUrl := article.url }
    ({ articles := st.articles ++ [newArt], nextId := st.nextId + 1,
       audit := st.audit ++ [entry] },
     { created := acc.created + 1, duped := acc.duped,
       keywordHits := matched.foldl bumpHit acc.keywordHits })

def persistArticlesGo (keywords : List String) :
    List RawArticle → Store → PersistCounters → Store × PersistCounters
  | [], st, acc => (st, acc)
  | a :: rest, st, acc =>
    let r := persistOne keywords st acc a
    persistArticlesGo keywords rest r.1 r.2

/-- `persistArticles` from `src/ingestion/index.ts`, as a function of the
store state. -/
def persistArticles (articles : List RawArticle) (keywords : List String)
    (st : Store) : Store × PersistCounters :=
  persistArticlesGo keywords articles st { created := 0, duped := 0, keywordHits := [] }

-- ═══════════════════════════════════════════════════════════════════════════
-- § Concrete fixtures used by the verification scenarios
-- ═══════════════════════════════════════════════════════════════════════════

def feedA : RssFeedConfig :=
  { name := "Feed A", url := "https://a.example/rss", outlet := "Outlet A",
    domain := "a.example", enabled := true }

def feedB : RssFeedConfig :=
  { name := "Feed B", url := "https://b.example/rss", outlet := "Outlet B",
    domain := "b.example", enabled := true }

/-- A feed item whose link carries a tracking parameter. -/
def itemA : RssItem :=
  { title := some (.str "California cardroom news"),
    link := some "https://news.example/story?utm_source=feedA",
    description := none, pubDate := some "2026-01-02", dcDate := none,
    contentEncoded := none, enclosureUrl := none, enclosureType := none,
    mediaContentUrl := none, author := none, dcCreator := none, guid := none }

/-- The same story from a second feed, without the tracking parameter. -/
def itemB : RssItem := { itemA with link := some "https://news.example/story" }

/-- An item with a description, for the snippet-length scenario. -/
def itemC : RssItem := { itemA with description := some (.str "A snippet body") }

def opts0 : RssFetchOptions :=
  { fromDate := none, toDate := none, keywords := ["California cardroom"] }

def kws0 : List String := ["California cardroom"]

def store0 : Store := { articles := [], nextId := 1, audit := [] }

/-- The candidate `parseRssItem` produces from `itemA`. -/
def candA : RawArticle :=
  { title := "California cardroom news",
    url := "https://news.example/story?utm_source=feedA", outlet := "Outlet A",
    outletDomain := "a.example", publishedAt := 78406121250000, snippet := none,
    imageUrl := none, author := none, source := "RSS" }

/-- The candidate `parseRssItem` produces from `itemB`. -/
def candB : RawArticle :=
  { candA with
      url := "https://news.example/story", outlet := "Outlet B",
      outletDomain := "b.example" }

/-- The candidate `parseRssItem` produces from `itemC`. -/
def candC : RawArticle := { candA with snippet := some "A snippet body" }

/-- A meta tag whose `property` attribute value is not lowercase. -/
def tagsC4 : List MetaAttrs := [[("property", "OG:Title"), ("content", "x")]]

-- ═══════════════════════════════════════════════════════════════════════════
-- § General lemmas
-- ═══════════════════════════════════════════════════════════════════════════

theorem dropWhile_len_le (p : Char → Bool) (l : List Char) :
    (l.dropWhile p).length ≤ l.length :=
  (List.dropWhile_suffix p).sublist.length_le

theorem jsTrim_length_le (cs : List Char) : (jsTrim cs).length ≤ cs.length := by
  unfold jsTrim
  calc ((cs.dropWhile jsWhitespace).reverse.dropWhile jsWhitespace).reverse.length
      = ((cs.dropWhile jsWhitespace).reverse.dropWhile jsWhitespace).length := by
        rw [List.length_reverse]
    _ ≤ (cs.dropWhile jsWhitespace).reverse.length := dropWhile_len_le _ _
    _ = (cs.dropWhile jsWhitespace).length := by rw [List.length_reverse]
    _ ≤ cs.length := dropWhile_len_le _ _

theorem startsWithL_iff {need hay : List Char} :
    startsWithL need hay = true ↔ ∃ post, hay = need ++ post := by
  induction need generalizing hay with
  | nil => simp [startsWithL]
  | cons n ns ih =>
    cases hay with
    | nil => simp [startsWithL]
    | cons h hs =>
      simp only [startsWithL, Bool.and_eq_true, decide_eq_true_eq, ih,
        List.cons_append, List.cons.injEq]
      constructor
      · rintro ⟨rfl, post, rfl⟩
        exact ⟨post, rfl, rfl⟩
      · rintro ⟨post, rfl, rfl⟩
        exact ⟨rfl, post, rfl⟩

theorem includesL_iff {hay need : List Char} :
    includesL hay need = true ↔ ∃ pre post, hay = pre ++ need ++ post := by
  induction hay with
  | nil =>
    rw [show includesL [] need = startsWithL need [] from rfl, startsWithL_iff]
    constructor
    · rintro ⟨post, h⟩
      exact ⟨[], post, by simpa using h⟩
    · rintro ⟨pre, post, h⟩
      rcases List.append_eq_nil.mp h.symm with ⟨h1, h2⟩
      rcases List.append_eq_nil.mp h1 with ⟨h3, h4⟩
      exact ⟨post, by simp [h2, h4]⟩
  | cons c rest ih =>
    rw [show includesL (c :: rest) need =
      (startsWithL need (c :: rest) || includesL rest need) from rfl]
    simp only [Bool.or_eq_true, startsWithL_iff, ih]
    constructor
    · rintro (⟨post, h⟩ | ⟨pre, post, h⟩)
      · exact ⟨[], post, by simpa using h⟩
      · exact ⟨c :: pre, post, by simp [h]⟩
    · rintro ⟨pre, post, h⟩
      cases pre with
      | nil => exact Or.inl ⟨post, by simpa using h⟩
      | cons p ps =>
        simp only [List.cons_append, List.cons.injEq] at h
        exact Or.inr ⟨ps, post, h.2⟩

-- ═══════════════════════════════════════════════════════════════════════════
-- § Claim C10 — matchKeywords
-- ═══════════════════════════════════════════════════════════════════════════

/-- Claim C10: for all text and keyword lists, `matchKeywords` returns a
sublist of the keywords (hence in input keyword order), every returned
keyword's lowercased form is a substring of the lowercased text, and empty
text or an empty keyword list yields the empty result. -/
theorem matchKeywords_spec (text : String) (keywords : List String) :
    List.Sublist (matchKeywords text keywords) keywords ∧
    (∀ kw ∈ matchKeywords text keywords,
      ∃ pre post : List Char,
        (jsToLower text).data = pre ++ (jsToLower kw).data ++ post) ∧
    matchKeywords "" keywords = [] ∧
    matchKeywords text [] = [] := by
  refine ⟨?_, ?_, ?_, ?_⟩
  · unfold matchKeywords
    split
    · exact List.nil_sublist _
    · exact List.filter_sublist _
  · intro kw hkw
    unfold matchKeywords at hkw
    split at hkw
    · simp at hkw
    · rw [List.mem_filter] at hkw
      have h2 := hkw.2
      unfold jsIncludes at h2
      exact includesL_iff.mp h2
  · simp [matchKeywords]
  · simp [matchKeywords]

theorem matchKeywords_spec_witness :
    List.Sublist (matchKeywords "Hello World" ["world", "zzz"]) ["world", "zzz"] ∧
    (∃ pre post : List Char,
      (jsToLower "Hello World").data = pre ++ (jsToLower "world").data ++ post) :=
  ⟨(matchKeywords_spec "Hello World" ["world", "zzz"]).1,
   (matchKeywords_spec "Hello World" ["world", "zzz"]).2.1 "world" (by decide)⟩

-- ═══════════════════════════════════════════════════════════════════════════
-- § Claim C2 — sanitizeText and angle brackets
-- ═══════════════════════════════════════════════════════════════════════════

/-- Claim C2: the spec requires that `sanitizeText` never emit `<` or `>`
for arbitrary input including malformed/unclosed tags.  The code violates
this: a lone unclosed `<` survives (`/<[^>]*>/` needs a closing `>`), and
entity decoding runs after tag stripping, so `&lt;b&gt;` decodes into the
complete tag `<b>`. -/
theorem sanitizeText_angle_bracket_bug :
    sanitizeText "<" = "<" ∧
    sanitizeText "a<b" = "a<b" ∧
    sanitizeText "&lt;b&gt;" = "<b>" := by
  refine ⟨by decide, by decide, by decide⟩

-- ═══════════════════════════════════════════════════════════════════════════
-- § Claim C8 — sanitizeAndTruncate length
-- ═══════════════════════════════════════════════════════════════════════════

set_option maxRecDepth 8000 in
/-- Claim C8 counterexample: the claim says `sanitizeAndTruncate(input, 500)`
always has length ≤ 500, but the appended ellipsis is not counted against
the max: 501 plain characters produce a 501-character output. -/
theorem sanitizeAndTruncate_exceeds_max :
    (sanitizeAndTruncate (String.mk (List.replicate 501 'a')) 500).length = 501 ∧
    ¬((sanitizeAndTruncate (String.mk (List.replicate 501 'a')) 500).length ≤ 500) := by
  refine ⟨by decide, by decide⟩

/-- Claim C8 (amended): `sanitizeAndTruncate(input, max)` has length at most
`max + 1` — the single appended ellipsis character does not count toward the
max — and consequently every snippet on a candidate article produced by
`parseRssItem` is at most 501 characters. -/
theorem sanitizeAndTruncate_length_le :
    (∀ (input : String) (m : Nat), (sanitizeAndTruncate input m).length ≤ m + 1) ∧
    (∀ item config options now a s, parseRssItem item config options now = some a →
      a.snippet = some s → s.length ≤ 501) := by
  have main : ∀ (input : String) (m : Nat),
      (sanitizeAndTruncate input m).length ≤ m + 1 := by
    intro input m
    simp only [sanitizeAndTruncate]
    split
    · omega
    · show (String.mk (jsTrim ((sanitizeText input).data.take m) ++ [ellipsisChar])).length ≤ m + 1
      have h1 : (jsTrim ((sanitizeText input).data.take m)).length ≤ m := by
        calc (jsTrim ((sanitizeText input).data.take m)).length
            ≤ ((sanitizeText input).data.take m).length := jsTrim_length_le _
          _ ≤ m := by simp [List.length_take]
      simp only [String.length, List.length_append, List.length_cons,
        List.length_nil]
      omega
  refine ⟨main, ?_⟩
  intro item config options now a s h hs
  simp only [parseRssItem] at h
  split at h
  · exact absurd h (by simp)
  · split at h
    · exact absurd h (by simp)
    · split at h
      · exact absurd h (by simp)
      · split at h
        · exact absurd h (by simp)
        · split at h
          · exact absurd h (by simp)
          · simp only [Option.some.injEq] at h
            subst h
            simp only at hs
            split at hs
            · exact absurd hs (by simp)
            · have hs' : sanitizeAndTruncate
                  (extractString (rssOr item.description (item.contentEncoded.map .str))) 500 = s := by
                exact Option.some.inj hs
              rw [← hs']
              exact main _ 500

-- ═══════════════════════════════════════════════════════════════════════════
-- § Claim C4 — findMeta
-- ═══════════════════════════════════════════════════════════════════════════

/-- Claim C4 counterexample: the claim says a tag matches when its
`property`/`name` attribute equals the candidate key case-insensitively.
In the code only the lookup key is lowercased; the attribute value is
compared verbatim.  Here the tag's `property` is `"OG:Title"`, which equals
`"og:title"` case-insensitively and has non-empty content `"x"`, yet
`findMeta` returns `null`. -/
theorem findMeta_case_sensitivity_counterexample :
    getAttr [("property", "OG:Title"), ("content", "x")] "property" = some "OG:Title" ∧
    jsToLower "OG:Title" = "og:title" ∧
    getAttr [("property", "OG:Title"), ("content", "x")] "content" = some "x" ∧
    findMeta tagsC4 ["og:title"] = none := by
  refine ⟨by decide, by decide, by decide, by decide⟩

/-- Claim C4 (amended): for each candidate key in order, `findMeta` examines
only the first tag whose `property` or `name` attribute is exactly the
lowercased key; if that tag's `content` is non-empty it returns it trimmed
and entity-decoded, otherwise (no such tag, or empty/missing content on that
first matching tag) it falls through to the next candidate key; `null` when
no key produces a value. -/
theorem findMeta_characterization (tags : List MetaAttrs) (lookups : List String) :
    findMeta tags lookups = lookups.findSome? (fun lookup =>
      (tags.find? (fun t => getAttr t "property" = some (jsToLower lookup) ||
          getAttr t "name" = some (jsToLower lookup))).bind (fun t =>
        match getAttr t "content" with
        | some content =>
          if content ≠ "" then some (decodeHtmlEntities ⟨jsTrim content.data⟩)
          else none
        | none => none)) := by
  induction lookups with
  | nil => rfl
  | cons lookup rest ih =>
    rw [List.findSome?_cons]
    simp only [findMeta]
    cases hf : tags.find? (fun t => getAttr t "property" = some (jsToLower lookup) ||
        getAttr t "name" = some (jsToLower lookup)) with
    | none => simpa using ih
    | some t =>
      cases hc : getAttr t "content" with
      | none => simpa [hc] using ih
      | some content =>
        by_cases hne : content = ""
        · simpa [hc, hne] using ih
        · simp [hc, hne]

-- ═══════════════════════════════════════════════════════════════════════════
-- § Claim C5 — detectPaywall decision rule
-- ═══════════════════════════════════════════════════════════════════════════

/-- Claim C5: `detectPaywall` returns true exactly when the status is 401 or
403, or at least one structural-marker pattern fires, or at least two
textual patterns fire, or at least one of each fires; in particular a single
textual hit with no structural hit and a normal status yields false. -/
theorem detectPaywall_decision_rule (html : String) (status : Nat) :
    (detectPaywall html status = true ↔
      status = 401 ∨ status = 403 ∨ 1 ≤ classHitCount html ∨
        2 ≤ textHitCount html ∨
        (1 ≤ textHitCount html ∧ 1 ≤ classHitCount html)) ∧
    (textHitCount html = 1 → classHitCount html = 0 →
      status ≠ 401 → status ≠ 403 → detectPaywall html status = false) := by
  constructor
  · simp only [detectPaywall]
    split
    · rename_i h
      simp only [Bool.or_eq_true, decide_eq_true_eq] at h
      constructor
      · intro _
        rcases h with h | h
        · exact Or.inl h
        · exact Or.inr (Or.inl h)
      · intro _
        rfl
    · rename_i h
      simp only [Bool.or_eq_true, decide_eq_true_eq, not_or] at h
      by_cases hc : classHitCount html ≥ 1
      · rw [if_pos hc]
        constructor
        · intro _
          exact Or.inr (Or.inr (Or.inl hc))
        · intro _
          rfl
      · rw [if_neg hc]
        by_cases ht2 : textHitCount html ≥ 2
        · rw [if_pos ht2]
          constructor
          · intro _
            exact Or.inr (Or.inr (Or.inr (Or.inl ht2)))
          · intro _
            rfl
        · rw [if_neg ht2]
          rw [if_neg (by simp; intro _; omega)]
          constructor
          · intro hfalse
            exact absurd hfalse (by simp)
          · intro hd
            rcases hd with hd | hd | hd | hd | ⟨hd1, hd2⟩
            · exact absurd hd h.1
            · exact absurd hd h.2
            · exact absurd hd hc
            · exact absurd hd ht2
            · exact absurd hd2 hc
  · intro ht hcl h1 h3
    simp only [detectPaywall]
    rw [if_neg (by simp [h1, h3])]
    rw [if_neg (by omega)]
    rw [if_neg (by omega)]
    rw [if_neg (by simp; intro _; omega)]

theorem detectPaywall_decision_rule_witness :
    textHitCount "subscribers only" = 1 ∧
    classHitCount "subscribers only" = 0 ∧
    detectPaywall "subscribers only" 200 = false :=
  ⟨by decide, by decide,
   (detectPaywall_decision_rule "subscribers only" 200).2 (by decide) (by decide)
     (by decide) (by decide)⟩

-- ═══════════════════════════════════════════════════════════════════════════
-- § Claim C6 — fetchUrlMetadata never throws
-- ═══════════════════════════════════════════════════════════════════════════

/-- Claim C6: the spec requires `fetchUrlMetadata` never to throw for any
input.  The parse phase runs outside the `try`/`catch`, and
`findArticleJsonLd` calls `typeStr.toLowerCase()` on an unchecked cast: an
HTML body whose JSON-LD block has a non-string truthy `@type` (here the
number 5) makes the function throw a `TypeError` instead of returning a
structured result. -/
theorem fetchUrlMetadata_typeError :
    fetchUrlMetadata "https://example.com/"
      (.response 200 "text/html"
        "<script type=\"application/ld+json\">\x7b\"@type\":5\x7d</script>") =
      .error "TypeError: typeStr.toLowerCase is not a function" := by
  rfl

-- ═══════════════════════════════════════════════════════════════════════════
-- § Claims C1 and C7 — shape of fetchUrlMetadata results
-- ═══════════════════════════════════════════════════════════════════════════

/-- Every result `fetchUrlMetadata` actually returns is either a `makeError`
record (null title, null snippet, non-null fetchError) or a success record
(null fetchError, snippet suppressed when paywalled). -/
theorem fetchUrlMetadata_ok_shape (rawUrl : String) (outcome : FetchOutcome)
    (r : UrlMetadata) (h : fetchUrlMetadata rawUrl outcome = .ok r) :
    (r.title = none ∧ r.snippet = none ∧ r.fetchError ≠ none) ∨
    (r.fetchError = none ∧ (r.isPaywalled = true → r.snippet = none)) := by
  simp only [fetchUrlMetadata] at h
  split at h
  · simp only [Except.ok.injEq] at h
    subst h
    exact Or.inl ⟨rfl, rfl, by simp [makeError]⟩
  · split at h
    · simp only [Except.ok.injEq] at h
      subst h
      exact Or.inl ⟨rfl, rfl, by simp [makeError]⟩
    · split at h
      · simp only [Except.ok.injEq] at h
        subst h
        exact Or.inl ⟨rfl, rfl, by simp [makeError]⟩
      · split at h
        · exact absurd h (by simp)
        · simp only [Except.ok.injEq] at h
          subst h
          refine Or.inr ⟨rfl, fun hp => ?_⟩
          dsimp only at hp ⊢
          simp [hp]

/-- Claim C1 counterexample: a successful fetch of a page with no title
candidates returns a record in which `fetchError` and `title` are both
null, refuting "never neither". -/
theorem fetchUrlMetadata_neither_outcome :
    (fetchUrlMetadata "https://example.com/a"
      (.response 200 "text/html" "")).map (fun r => (r.fetchError, r.title)) =
      .ok (none, none) := by
  rfl

/-- Claim C1 (amended): at most one of `fetchError` and `title` is non-null
on every result `fetchUrlMetadata` returns: an error result always has a
null title, and a successful parse always has a null `fetchError` (its
title may still be null when the page offers no title candidate). -/
theorem fetchUrlMetadata_at_most_one (rawUrl : String) (outcome : FetchOutcome)
    (r : UrlMetadata) (h : fetchUrlMetadata rawUrl outcome = .ok r) :
    (r.fetchError = none ∨ r.title = none) ∧
    (r.fetchError ≠ none → r.title = none) := by
  rcases fetchUrlMetadata_ok_shape rawUrl outcome r h with ⟨ht, _, _⟩ | ⟨hf, _⟩
  · exact ⟨Or.inr ht, fun _ => ht⟩
  · exact ⟨Or.inl hf, fun hne => absurd hf hne⟩

theorem fetchUrlMetadata_at_most_one_witness :
    fetchUrlMetadata "not a url" (.response 200 "text/html" "") =
      .ok (makeError "not a url" "not a url" "Invalid URL" none none) ∧
    ((makeError "not a url" "not a url" "Invalid URL" none none).fetchError = none ∨
      (makeError "not a url" "not a url" "Invalid URL" none none).title = none) :=
  ⟨by rfl,
   (fetchUrlMetadata_at_most_one "not a url" (.response 200 "text/html" "") _ (by rfl)).1⟩

/-- Claim C7: whenever a `fetchUrlMetadata` result has `isPaywalled = true`,
its `snippet` is null — on the success path an extracted snippet is
discarded when the paywall detector fires, and every error record carries a
null snippet. -/
theorem fetchUrlMetadata_paywalled_snippet (rawUrl : String)
    (outcome : FetchOutcome) (r : UrlMetadata)
    (h : fetchUrlMetadata rawUrl outcome = .ok r) (hp : r.isPaywalled = true) :
    r.snippet = none := by
  rcases fetchUrlMetadata_ok_shape rawUrl outcome r h with ⟨_, hs, _⟩ | ⟨_, hs⟩
  · exact hs
  · exact hs hp

theorem fetchUrlMetadata_paywalled_snippet_witness :
    fetchUrlMetadata "https://example.com/a"
      (.response 200 "text/html"
        "<meta property=\"og:description\" content=\"teaser\"><div class=\"paywall-overlay\">x</div>") =
      .ok
        { url := "https://example.com/a", originalUrl := "https://example.com/a",
          title := none, outlet := some "example.com",
          outletDomain := "example.com", publishedAt := none, snippet := none,
          imageUrl := none, author := none, isPaywalled := true,
          fetchError := none } ∧
    UrlMetadata.isPaywalled
        { url := "https://example.com/a", originalUrl := "https://example.com/a",
          title := none, outlet := some "example.com",
          outletDomain := "example.com", publishedAt := none, snippet := none,
          imageUrl := none, author := none, isPaywalled := true,
          fetchError := none } = true ∧
    UrlMetadata.snippet
        { url := "https://example.com/a", originalUrl := "https://example.com/a",
          title := none, outlet := some "example.com",
          outletDomain := "example.com", publishedAt := none, snippet := none,
          imageUrl := none, author := none, isPaywalled := true,
          fetchError := none } = none :=
  ⟨by rfl, by rfl,
   fetchUrlMetadata_paywalled_snippet "https://example.com/a"
     (.response 200 "text/html"
       "<meta property=\"og:description\" content=\"teaser\"><div class=\"paywall-overlay\">x</div>")
     { url := "https://example.com/a", originalUrl := "https://example.com/a",
       title := none, outlet := some "example.com",
       outletDomain := "example.com", publishedAt := none, snippet := none,
       imageUrl := none, author := none, isPaywalled := true,
       fetchError := none } (by rfl) (by rfl)⟩

-- ═══════════════════════════════════════════════════════════════════════════
-- § Claim C3 — deduplication in persistArticles
-- ═══════════════════════════════════════════════════════════════════════════

/-- Case analysis of one `persistArticles` loop iteration: a URL hit counts
a duplicate and leaves the store untouched; a miss creates exactly one
article row and one INGESTED audit row carrying the candidate's URL. -/
theorem persistOne_spec (kws : List String) (st : Store) (acc : PersistCounters)
    (a : RawArticle) :
    ((∃ ex, findUniqueByUrl st a.url = some ex) ∧
      (persistOne kws st acc a).1 = st ∧
      (persistOne kws st acc a).2.created = acc.created ∧
      (persistOne kws st acc a).2.duped = acc.duped + 1) ∨
    (findUniqueByUrl st a.url = none ∧
      ∃ newArt entry,
        (persistOne kws st acc a).1.articles = st.articles ++ [newArt] ∧
        (persistOne kws st acc a).1.audit = st.audit ++ [entry] ∧
        newArt.url = a.url ∧ entry.action = "INGESTED" ∧
        entry.detailsUrl = a.url ∧
        (persistOne kws st acc a).2.created = acc.created + 1 ∧
        (persistOne kws st acc a).2.duped = acc.duped) := by
  unfold persistOne
  cases hf : findUniqueByUrl st a.url with
  | some ex =>
    left
    exact ⟨⟨ex, rfl⟩, rfl, rfl, rfl⟩
  | none =>
    right
    refine ⟨rfl, _, _, rfl, rfl, rfl, rfl, rfl, rfl, rfl⟩

theorem persistGo_append (kws : List String) (arts : List RawArticle) :
    ∀ (st : Store) (acc : PersistCounters),
      (∃ xs, (persistArticlesGo kws arts st acc).1.articles = st.articles ++ xs) ∧
      (∃ ys, (persistArticlesGo kws arts st acc).1.audit = st.audit ++ ys) := by
  induction arts with
  | nil =>
    intro st acc
    exact ⟨⟨[], by simp [persistArticlesGo]⟩, ⟨[], by simp [persistArticlesGo]⟩⟩
  | cons a rest ih =>
    intro st acc
    simp only [persistArticlesGo]
    rcases ih (persistOne kws st acc a).1 (persistOne kws st acc a).2 with ⟨⟨xs, hxs⟩, ⟨ys, hys⟩⟩
    rcases persistOne_spec kws st acc a with ⟨_, hst, _, _⟩ | ⟨_, newArt, entry, ha, hb, _⟩
    · rw [hst] at hxs hys
      rw [hst]
      exact ⟨⟨xs, hxs⟩, ⟨ys, hys⟩⟩
    · constructor
      · refine ⟨newArt :: xs, ?_⟩
        rw [hxs, ha, List.append_assoc]
        rfl
      · refine ⟨entry :: ys, ?_⟩
        rw [hys, hb, List.append_assoc]
        rfl

theorem persistGo_counts (kws : List String) (arts : List RawArticle) :
    ∀ (st : Store) (acc : PersistCounters),
      (persistArticlesGo kws arts st acc).2.created +
        (persistArticlesGo kws arts st acc).2.duped =
        acc.created + acc.duped + arts.length := by
  induction arts with
  | nil =>
    intro st acc
    simp [persistArticlesGo]
  | cons a rest ih =>
    intro st acc
    simp only [persistArticlesGo]
    rw [ih (persistOne kws st acc a).1 (persistOne kws st acc a).2]
    rcases persistOne_spec kws st acc a with ⟨_, _, hc, hd⟩ | ⟨_, _, _, _, _, _, _, _, hc, hd⟩ <;>
      (rw [hc, hd]; simp only [List.length_cons]; omega)

theorem persistGo_articles_count (kws : List String) (arts : List RawArticle)
    (u : String) :
    ∀ (st : Store) (acc : PersistCounters),
      st.articles.countP (fun a => a.url = u) ≤ 1 →
      (persistArticlesGo kws arts st acc).1.articles.countP (fun a => a.url = u) ≤ 1 := by
  induction arts with
  | nil =>
    intro st acc h1
    exact h1
  | cons a rest ih =>
    intro st acc h1
    simp only [persistArticlesGo]
    rcases persistOne_spec kws st acc a with ⟨_, hst, _, _⟩ | ⟨hf, newArt, entry, ha, _, hu, _, _, _, _⟩
    · rw [hst]
      exact ih st _ h1
    · by_cases hau : a.url = u
      · have hzero : st.articles.countP (fun a => a.url = u) = 0 := by
          rw [List.countP_eq_zero]
          intro x hx
          have := List.find?_eq_none.mp (hau ▸ hf) x hx
          simpa using this
        have hart : (persistOne kws st acc a).1.articles.countP (fun a => a.url = u) = 1 := by
          rw [ha, List.countP_append, hzero]
          simp [List.countP_cons, hu, hau]
        exact ih _ _ (by simp [hart])
      · have hart : (persistOne kws st acc a).1.articles.countP (fun a => a.url = u) =
            st.articles.countP (fun a => a.url = u) := by
          rw [ha, List.countP_append]
          simp [List.countP_cons, hu, hau]
        exact ih _ _ (by rw [hart]; exact h1)

theorem persistGo_dedup_invariant (kws : List String) (arts : List RawArticle)
    (u : String) :
    ∀ (st : Store) (acc : PersistCounters),
      st.articles.countP (fun a => a.url = u) ≤ 1 →
      st.audit.countP (fun e => e.action = "INGESTED" && e.detailsUrl = u) ≤
        st.articles.countP (fun a => a.url = u) →
      (persistArticlesGo kws arts st acc).1.articles.countP (fun a => a.url = u) ≤ 1 ∧
      (persistArticlesGo kws arts st acc).1.audit.countP
          (fun e => e.action = "INGESTED" && e.detailsUrl = u) ≤
        (persistArticlesGo kws arts st acc).1.articles.countP (fun a => a.url = u) := by
  induction arts with
  | nil =>
    intro st acc h1 h2
    exact ⟨h1, h2⟩
  | cons a rest ih =>
    intro st acc h1 h2
    simp only [persistArticlesGo]
    rcases persistOne_spec kws st acc a with ⟨_, hst, _, _⟩ | ⟨hf, newArt, entry, ha, hb, hu, he1, he2, _, _⟩
    · rw [hst]
      exact ih st _ h1 h2
    · by_cases hau : a.url = u
      · have hzero : st.articles.countP (fun a => a.url = u) = 0 := by
          rw [List.countP_eq_zero]
          intro x hx
          have := List.find?_eq_none.mp (hau ▸ hf) x hx
          simpa using this
        have hart : (persistOne kws st acc a).1.articles.countP (fun a => a.url = u) = 1 := by
          rw [ha, List.countP_append, hzero]
          simp [List.countP_cons, hu, hau]
        have haud : (persistOne kws st acc a).1.audit.countP
            (fun e => e.action = "INGESTED" && e.detailsUrl = u) = 1 := by
          rw [hb, List.countP_append]
          have hz2 : st.audit.countP (fun e => e.action = "INGESTED" && e.detailsUrl = u) = 0 := by
            omega
          rw [hz2]
          simp [List.countP_cons, he1, he2, hau]
        exact ih _ _ (by simp [hart]) (by simp [hart, haud])
      · have hart : (persistOne kws st acc a).1.articles.countP (fun a => a.url = u) =
            st.articles.countP (fun a => a.url = u) := by
          rw [ha, List.countP_append]
          simp [List.countP_cons, hu, hau]
        have haud : (persistOne kws st acc a).1.audit.countP
            (fun e => e.action = "INGESTED" && e.detailsUrl = u) =
            st.audit.countP (fun e => e.action = "INGESTED" && e.detailsUrl = u) := by
          rw [hb, List.countP_append]
          simp [List.countP_cons, he2, hau]
        exact ih _ _ (by rw [hart]; exact h1) (by rw [hart, haud]; exact h2)

/-- Claim C3 counterexample: two RSS feeds yield candidates for the same
story whose canonical URLs (`normalizeUrl`) are equal but whose raw URLs
differ by a tracking parameter.  `persistArticles` creates BOTH and writes
two INGESTED audit entries: deduplication is not by canonical URL. -/
theorem persistArticles_canonical_url_counterexample :
    parseRssItem itemA feedA opts0 0 = some candA ∧
    parseRssItem itemB feedB opts0 0 = some candB ∧
    normalizeUrl candA.url = normalizeUrl candB.url ∧
    ¬(candA.url = candB.url) ∧
    (persistArticles [candA, candB] kws0 store0).2.created = 2 ∧
    (persistArticles [candA, candB] kws0 store0).2.duped = 0 ∧
    ((persistArticles [candA, candB] kws0 store0).1.audit.filter
      (fun e => e.action = "INGESTED")).length = 2 := by
  refine ⟨by decide, by decide, by decide, by decide, by decide, by decide, by decide⟩

/-- Claim C3 (amended): within a single run, `persistArticles` deduplicates
by EXACT URL-string equality, not by the normalized canonical form: for any
url `u` not yet in the store, at most one Article row with url `u` and at
most one INGESTED audit entry for `u` exist afterwards; existing rows are
never modified (both tables only grow by appending); and every processed
candidate increments exactly one of the created / duplicate counters.
Candidates whose canonical URLs agree but whose raw URL strings differ are
NOT deduplicated (see the counterexample). -/
theorem persistArticles_dedup_by_exact_url (arts : List RawArticle)
    (kws : List String) (st : Store) (u : String) :
    (∃ xs, (persistArticles arts kws st).1.articles = st.articles ++ xs) ∧
    (∃ ys, (persistArticles arts kws st).1.audit = st.audit ++ ys) ∧
    ((persistArticles arts kws st).2.created +
      (persistArticles arts kws st).2.duped = arts.length) ∧
    ((∀ a ∈ st.articles, ¬(a.url = u)) →
      (persistArticles arts kws st).1.articles.countP (fun a => a.url = u) ≤ 1) ∧
    ((∀ a ∈ st.articles, ¬(a.url = u)) →
      (∀ e ∈ st.audit, ¬(e.action = "INGESTED" ∧ e.detailsUrl = u)) →
      (persistArticles arts kws st).1.audit.countP
        (fun e => e.action = "INGESTED" && e.detailsUrl = u) ≤ 1) := by
  unfold persistArticles
  have happ := persistGo_append kws arts st
    { created := 0, duped := 0, keywordHits := [] }
  refine ⟨happ.1, happ.2, ?_, ?_, ?_⟩
  · rw [persistGo_counts kws arts st { created := 0, duped := 0, keywordHits := [] }]
    simp
  · intro hu
    have hz : st.articles.countP (fun a => a.url = u) = 0 :=
      List.countP_eq_zero.mpr (by simpa using hu)
    exact persistGo_articles_count kws arts u st _ (by omega)
  · intro hu he
    have hz : st.articles.countP (fun a => a.url = u) = 0 :=
      List.countP_eq_zero.mpr (by simpa using hu)
    have hz2 : st.audit.countP (fun e => e.action = "INGESTED" && e.detailsUrl = u) = 0 := by
      rw [List.countP_eq_zero]
      intro e hee
      simp only [Bool.and_eq_true, decide_eq_true_eq, not_and]
      intro hact hdet
      exact he e hee ⟨hact, hdet⟩
    have hinv := persistGo_dedup_invariant kws arts u st
      { created := 0, duped := 0, keywordHits := [] } (by omega) (by omega)
    omega

theorem persistArticles_dedup_by_exact_url_witness :
    (∀ a ∈ store0.articles, ¬(a.url = candA.url)) ∧
    (∀ e ∈ store0.audit, ¬(e.action = "INGESTED" ∧ e.detailsUrl = candA.url)) ∧
    (persistArticles [candA, candA] kws0 store0).1.articles.countP
      (fun a => a.url = candA.url) ≤ 1 ∧
    (persistArticles [candA, candA] kws0 store0).1.audit.countP
      (fun e => e.action = "INGESTED" && e.detailsUrl = candA.url) ≤ 1 ∧
    (persistArticles [candA, candA] kws0 store0).2.created +
      (persistArticles [candA, candA] kws0 store0).2.duped = 2 :=
  ⟨by decide, by decide,
   (persistArticles_dedup_by_exact_url [candA, candA] kws0 store0 candA.url).2.2.2.1
     (by decide),
   (persistArticles_dedup_by_exact_url [candA, candA] kws0 store0 candA.url).2.2.2.2
     (by decide) (by decide),
   (persistArticles_dedup_by_exact_url [candA, candA] kws0 store0 candA.url).2.2.1⟩

-- ═══════════════════════════════════════════════════════════════════════════
-- § Claim C9 — normalizeUrl: character-level lemmas
-- ═══════════════════════════════════════════════════════════════════════════

theorem char_toNat_inj {a b : Char} (h : a.toNat = b.toNat) : a = b :=
  Char.ext (UInt32.toNat.inj h)

theorem char_eq_iff_toNat {a b : Char} : a = b ↔ a.toNat = b.toNat :=
  ⟨fun h => h ▸ rfl, char_toNat_inj⟩

theorem char_le_iff_toNat {a b : Char} : a ≤ b ↔ a.toNat ≤ b.toNat := by
  rw [Char.le_def]
  exact ⟨fun h => h, fun h => h⟩

theorem char_toNat_ofNat_valid {n : Nat} (h : n < 55296) : (Char.ofNat n).toNat = n := by
  have hv : Nat.isValidChar n := Or.inl h
  rw [Char.ofNat, dif_pos hv]
  simp only [Char.ofNatAux, Char.toNat]
  simp [UInt32.toNat, BitVec.toNat_ofNatLt]

theorem char_toLower_eq (c : Char) :
    Char.toLower c = if 65 ≤ c.toNat ∧ c.toNat ≤ 90 then Char.ofNat (c.toNat + 32) else c := rfl

theorem char_toLower_toNat (c : Char) :
    (Char.toLower c).toNat =
      if 65 ≤ c.toNat ∧ c.toNat ≤ 90 then c.toNat + 32 else c.toNat := by
  rw [char_toLower_eq]
  by_cases h : 65 ≤ c.toNat ∧ c.toNat ≤ 90
  · rw [if_pos h, if_pos h, char_toNat_ofNat_valid (by omega)]
  · rw [if_neg h, if_neg h]

theorem char_toLower_toLower (c : Char) : c.toLower.toLower = c.toLower := by
  have t := char_toLower_toNat c
  apply char_toNat_inj
  rw [char_toLower_toNat, t]
  split_ifs at * <;> omega

theorem lowerL_idem (l : List Char) : lowerL (lowerL l) = lowerL l := by
  unfold lowerL
  rw [List.map_map]
  exact List.map_congr_left fun a _ => char_toLower_toLower a

theorem char_isAlpha_iff (c : Char) :
    c.isAlpha = true ↔ (65 ≤ c.toNat ∧ c.toNat ≤ 90) ∨ (97 ≤ c.toNat ∧ c.toNat ≤ 122) := by
  unfold Char.isAlpha Char.isUpper Char.isLower
  simp only [Bool.or_eq_true, Bool.and_eq_true, decide_eq_true_eq]
  exact ⟨fun h => h, fun h => h⟩

theorem jsDigit_iff (c : Char) : jsDigit c = true ↔ 48 ≤ c.toNat ∧ c.toNat ≤ 57 := by
  unfold jsDigit
  simp only [Bool.and_eq_true, decide_eq_true_eq, char_le_iff_toNat]
  exact ⟨fun h => h, fun h => h⟩

theorem isSchemeChar_iff (c : Char) :
    isSchemeChar c = true ↔
      (65 ≤ c.toNat ∧ c.toNat ≤ 90) ∨ (97 ≤ c.toNat ∧ c.toNat ≤ 122) ∨
      (48 ≤ c.toNat ∧ c.toNat ≤ 57) ∨ c.toNat = 43 ∨ c.toNat = 45 ∨ c.toNat = 46 := by
  unfold isSchemeChar
  simp only [Bool.or_eq_true, decide_eq_true_eq, char_isAlpha_iff, jsDigit_iff,
    char_eq_iff_toNat]
  have h43 : ('+' : Char).toNat = 43 := rfl
  have h45 : ('-' : Char).toNat = 45 := rfl
  have h46 : ('.' : Char).toNat = 46 := rfl
  rw [h43, h45, h46]
  omega

theorem notDelimHost_iff (c : Char) :
    notDelimHost c = true ↔ c.toNat ≠ 47 ∧ c.toNat ≠ 63 ∧ c.toNat ≠ 35 := by
  unfold notDelimHost
  simp only [Bool.not_eq_true', Bool.or_eq_false_iff, decide_eq_false_iff_not,
    char_eq_iff_toNat]
  constructor
  · rintro ⟨⟨h1, h2⟩, h3⟩
    exact ⟨by simpa using h1, by simpa using h2, by simpa using h3⟩
  · rintro ⟨h1, h2, h3⟩
    exact ⟨⟨by simpa using h1, by simpa using h2⟩, by simpa using h3⟩

theorem notDelimPath_iff (c : Char) :
    notDelimPath c = true ↔ c.toNat ≠ 63 ∧ c.toNat ≠ 35 := by
  unfold notDelimPath
  simp only [Bool.not_eq_true', Bool.or_eq_false_iff, decide_eq_false_iff_not,
    char_eq_iff_toNat]
  constructor
  · rintro ⟨h1, h2⟩
    exact ⟨by simpa using h1, by simpa using h2⟩
  · rintro ⟨h1, h2⟩
    exact ⟨by simpa using h1, by simpa using h2⟩

theorem isSchemeChar_toLower {c : Char} (h : isSchemeChar c = true) :
    isSchemeChar (Char.toLower c) = true := by
  rw [isSchemeChar_iff] at h ⊢
  rw [char_toLower_toNat]
  split_ifs with hc <;> omega

theorem isAlpha_toLower {c : Char} (h : c.isAlpha = true) :
    (Char.toLower c).isAlpha = true := by
  rw [char_isAlpha_iff] at h ⊢
  rw [char_toLower_toNat]
  split_ifs with hc <;> omega

theorem notDelimHost_toLower {c : Char} (h : notDelimHost c = true) :
    notDelimHost (Char.toLower c) = true := by
  rw [notDelimHost_iff] at h ⊢
  rw [char_toLower_toNat]
  split_ifs with hc <;> omega


-- ═══════════════════════════════════════════════════════════════════════════
-- § Claim C9 — normalizeUrl: list plumbing
-- ═══════════════════════════════════════════════════════════════════════════

theorem isEmpty_true_iff {α : Type} {l : List α} : l.isEmpty = true ↔ l = [] := by
  cases l <;> simp

theorem takeWhile_all {α : Type} (p : α → Bool) {l : List α}
    (h : ∀ c ∈ l, p c = true) :
    l.takeWhile p = l ∧ l.dropWhile p = [] := by
  induction l with
  | nil => exact ⟨rfl, rfl⟩
  | cons a t ih =>
    have ha := h a (List.mem_cons_self a t)
    have ht := ih fun c hc => h c (List.mem_cons_of_mem a hc)
    simp [List.takeWhile_cons, List.dropWhile_cons, ha, ht.1, ht.2]

theorem takeWhile_append_stop {α : Type} (p : α → Bool) {l1 : List α} (l2 : List α)
    (h1 : ∀ c ∈ l1, p c = true) {c : α} (hc : p c = false) :
    (l1 ++ c :: l2).takeWhile p = l1 ∧ (l1 ++ c :: l2).dropWhile p = c :: l2 := by
  induction l1 with
  | nil => simp [List.takeWhile_cons, List.dropWhile_cons, hc]
  | cons a t ih =>
    have ha := h1 a (List.mem_cons_self a t)
    have ht := ih fun x hx => h1 x (List.mem_cons_of_mem a hx)
    simp [List.takeWhile_cons, List.dropWhile_cons, ha, ht.1, ht.2]

theorem dropWhile_head_false {α : Type} (p : α → Bool) {l : List α} {x : α}
    {xs : List α} (h : l.dropWhile p = x :: xs) : p x = false := by
  induction l with
  | nil => simp [List.dropWhile] at h
  | cons a t ih =>
    rw [List.dropWhile_cons] at h
    split at h
    · exact ih h
    · rename_i ha
      injection h with h1 _
      subst h1
      simpa using ha

theorem mem_lowerL {c : Char} {l : List Char} (h : c ∈ lowerL l) :
    ∃ c', c' ∈ l ∧ c = Char.toLower c' := by
  unfold lowerL at h
  rcases List.mem_map.mp h with ⟨c', hm, he⟩
  exact ⟨c', hm, he.symm⟩

theorem lowerL_fixed {l : List Char} (c : Char) (h : c ∈ lowerL l) :
    Char.toLower c = c := by
  rcases mem_lowerL h with ⟨c', _, rfl⟩
  exact char_toLower_toLower c'

theorem lowerL_ne_nil {l : List Char} (h : l ≠ []) : lowerL l ≠ [] := by
  unfold lowerL
  simpa using h

theorem lowerL_eq_self {l : List Char} (h : ∀ c ∈ l, Char.toLower c = c) :
    lowerL l = l := by
  unfold lowerL
  calc l.map Char.toLower = l.map id := List.map_congr_left h
  _ = l := List.map_id l

-- ═══════════════════════════════════════════════════════════════════════════
-- § Claim C9 — parseUrl invariants and serialize/parse round trip
-- ═══════════════════════════════════════════════════════════════════════════

/-- Every successful `parseUrl` result has: a nonempty lowercase scheme of
scheme characters starting with a letter, a nonempty lowercase host free of
`/?#`, a path starting with `/` and free of `?#`, and a query free of `#`. -/
theorem parseUrl_inv {s : String} {p : ParsedUrl} (h : parseUrl s = some p) :
    ((p.scheme ≠ [] ∧ ∀ c ∈ p.scheme, isSchemeChar c = true) ∧
     (∀ c ∈ p.scheme, Char.toLower c = c) ∧
     ∀ a ∈ p.scheme.head?, a.isAlpha = true) ∧
    ((p.host ≠ [] ∧ ∀ c ∈ p.host, notDelimHost c = true) ∧
     ∀ c ∈ p.host, Char.toLower c = c) ∧
    (p.path.head? = some '/' ∧ ∀ c ∈ p.path, notDelimPath c = true) ∧
    (∀ q, p.query = some q → ∀ c ∈ q, c ≠ '#') := by
  simp only [parseUrl] at h
  split at h
  case h_2 => simp at h
  rename_i rest1 hrest
  split at h
  case h_1 => simp at h
  rename_i c0 schTail hsch
  split at h
  case isFalse => simp at h
  rename_i halpha
  split at h
  case isTrue => simp at h
  rename_i hhost
  rw [hsch] at h
  have hSne : lowerL (c0 :: schTail) ≠ [] := by simp [lowerL]
  have hSall : ∀ c ∈ lowerL (c0 :: schTail), isSchemeChar c = true := by
    intro c hc
    rcases mem_lowerL hc with ⟨c', hm, rfl⟩
    exact isSchemeChar_toLower (List.mem_takeWhile_imp (hsch.symm ▸ hm))
  have hSfix : ∀ c ∈ lowerL (c0 :: schTail), Char.toLower c = c :=
    fun c hc => lowerL_fixed c hc
  have hShead : ∀ a ∈ (lowerL (c0 :: schTail)).head?, a.isAlpha = true := by
    intro a ha
    simp [lowerL] at ha
    subst ha
    exact isAlpha_toLower halpha
  have hHraw : rest1.takeWhile notDelimHost ≠ [] := by
    intro he
    rw [he] at hhost
    exact hhost rfl
  have hHne : lowerL (rest1.takeWhile notDelimHost) ≠ [] := lowerL_ne_nil hHraw
  have hHall : ∀ c ∈ lowerL (rest1.takeWhile notDelimHost), notDelimHost c = true := by
    intro c hc
    rcases mem_lowerL hc with ⟨c', hm, rfl⟩
    exact notDelimHost_toLower (List.mem_takeWhile_imp hm)
  have hHfix : ∀ c ∈ lowerL (rest1.takeWhile notDelimHost), Char.toLower c = c :=
    fun c hc => lowerL_fixed c hc
  have hPhead :
      (if ((rest1.dropWhile notDelimHost).takeWhile notDelimPath).isEmpty = true
        then ['/'] else (rest1.dropWhile notDelimHost).takeWhile notDelimPath).head?
        = some '/' := by
    by_cases hpe : ((rest1.dropWhile notDelimHost).takeWhile notDelimPath).isEmpty = true
    · rw [if_pos hpe]
      rfl
    · rw [if_neg hpe]
      have hne : (rest1.dropWhile notDelimHost).takeWhile notDelimPath ≠ [] :=
        fun he => hpe (by simp [he])
      cases hd : rest1.dropWhile notDelimHost with
      | nil =>
        rw [hd] at hne
        exact absurd rfl hne
      | cons x xs =>
        have hxfalse : notDelimHost x = false := dropWhile_head_false notDelimHost hd
        rw [hd] at hne
        by_cases hpx : notDelimPath x = true
        · rw [List.takeWhile_cons_of_pos hpx]
          have h47 : x.toNat = 47 := by
            have hB := (notDelimPath_iff x).mp hpx
            have hA : ¬(x.toNat ≠ 47 ∧ x.toNat ≠ 63 ∧ x.toNat ≠ 35) := by
              rw [← notDelimHost_iff]
              simp [hxfalse]
            omega
          have hx : x = '/' := char_toNat_inj (by rw [h47]; rfl)
          rw [hx]
          rfl
        · rw [List.takeWhile_cons_of_neg (by simpa using hpx)] at hne
          exact absurd rfl hne
  have hPall :
      ∀ c ∈ (if ((rest1.dropWhile notDelimHost).takeWhile notDelimPath).isEmpty = true
        then ['/'] else (rest1.dropWhile notDelimHost).takeWhile notDelimPath),
        notDelimPath c = true := by
    intro c hc
    split at hc
    · simp at hc
      subst hc
      decide
    · exact List.mem_takeWhile_imp hc
  split at h
  · rename_i r hr
    split at h
    · rename_i f hf
      injection h with h
      subst h
      refine ⟨⟨⟨hSne, hSall⟩, hSfix, hShead⟩, ⟨⟨hHne, hHall⟩, hHfix⟩,
        ⟨hPhead, hPall⟩, ?_⟩
      intro q hq c hc
      have hq' : r.takeWhile notHash = q := by
        simpa using hq
      subst hq'
      have := List.mem_takeWhile_imp hc
      simpa [notHash] using this
    · injection h with h
      subst h
      refine ⟨⟨⟨hSne, hSall⟩, hSfix, hShead⟩, ⟨⟨hHne, hHall⟩, hHfix⟩,
        ⟨hPhead, hPall⟩, ?_⟩
      intro q hq c hc
      have hq' : r.takeWhile notHash = q := by
        simpa using hq
      subst hq'
      have := List.mem_takeWhile_imp hc
      simpa [notHash] using this
  · rename_i f hf
    injection h with h
    subst h
    refine ⟨⟨⟨hSne, hSall⟩, hSfix, hShead⟩, ⟨⟨hHne, hHall⟩, hHfix⟩,
      ⟨hPhead, hPall⟩, ?_⟩
    intro q hq
    simp at hq
  · injection h with h
    subst h
    refine ⟨⟨⟨hSne, hSall⟩, hSfix, hShead⟩, ⟨⟨hHne, hHall⟩, hHfix⟩,
      ⟨hPhead, hPall⟩, ?_⟩
    intro q hq
    simp at hq

/-- Serializing a parsed URL whose components satisfy the `parseUrl`
invariants and whose fragment is empty parses back to the same record. -/
theorem parseUrl_serialize {p : ParsedUrl}
    (hSne : p.scheme ≠ [])
    (hSall : ∀ c ∈ p.scheme, isSchemeChar c = true)
    (hShead : ∀ a ∈ p.scheme.head?, a.isAlpha = true)
    (hSfix : ∀ c ∈ p.scheme, Char.toLower c = c)
    (hHne : p.host ≠ [])
    (hHall : ∀ c ∈ p.host, notDelimHost c = true)
    (hHfix : ∀ c ∈ p.host, Char.toLower c = c)
    (hPhead : p.path.head? = some '/')
    (hPall : ∀ c ∈ p.path, notDelimPath c = true)
    (hQ : ∀ q, p.query = some q → ∀ c ∈ q, c ≠ '#')
    (hF : p.fragment = none) :
    parseUrl (String.mk (serializeUrl p)) = some p := by
  obtain ⟨sch, host, path, query, frag⟩ := p
  dsimp only at hSne hSall hShead hSfix hHne hHall hHfix hPhead hPall hQ hF
  subst hF
  obtain ⟨c0, st, rfl⟩ : ∃ c0 st, sch = c0 :: st := by
    cases sch with
    | nil => exact absurd rfl hSne
    | cons a t => exact ⟨a, t, rfl⟩
  obtain ⟨pt, rfl⟩ : ∃ pt, path = '/' :: pt := by
    cases path with
    | nil => simp at hPhead
    | cons a t =>
      simp at hPhead
      exact ⟨t, by rw [hPhead]⟩
  have halpha : c0.isAlpha = true := hShead c0 (by simp)
  have hHeF : ¬(host.isEmpty = true) := by
    cases host with
    | nil => exact absurd rfl hHne
    | cons _ _ => simp
  have hlow1 : lowerL (c0 :: st) = c0 :: st := lowerL_eq_self hSfix
  have hlow2 : lowerL host = host := lowerL_eq_self hHfix
  cases query with
  | none =>
    have e0 : serializeUrl ⟨c0 :: st, host, '/' :: pt, none, none⟩ =
        (c0 :: st) ++ ':' :: '/' :: '/' :: (host ++ '/' :: pt) := by
      simp [serializeUrl]
    have ht1 := takeWhile_append_stop isSchemeChar ('/' :: '/' :: (host ++ '/' :: pt))
      hSall (show isSchemeChar ':' = false by decide)
    have ht2 := takeWhile_append_stop notDelimHost pt hHall
      (show notDelimHost '/' = false by decide)
    have ht3 := takeWhile_all notDelimPath hPall
    rw [e0]
    simp only [parseUrl, ht1.1, ht1.2]
    rw [if_pos halpha]
    simp only [ht2.1, ht2.2]
    rw [if_neg hHeF]
    simp only [ht3.1, ht3.2]
    rw [if_neg (show ¬((('/' : Char) :: pt).isEmpty = true) by simp)]
    rw [hlow1, hlow2]
  | some q =>
    have hqall : ∀ c ∈ q, notHash c = true := by
      intro c hc
      simpa [notHash] using hQ q rfl c hc
    have e0 : serializeUrl ⟨c0 :: st, host, '/' :: pt, some q, none⟩ =
        (c0 :: st) ++ ':' :: '/' :: '/' :: (host ++ '/' :: (pt ++ '?' :: q)) := by
      simp [serializeUrl]
    have ht1 := takeWhile_append_stop isSchemeChar
      ('/' :: '/' :: (host ++ '/' :: (pt ++ '?' :: q)))
      hSall (show isSchemeChar ':' = false by decide)
    have ht2 := takeWhile_append_stop notDelimHost (pt ++ '?' :: q) hHall
      (show notDelimHost '/' = false by decide)
    have hassoc : ('/' : Char) :: (pt ++ '?' :: q) = (('/' : Char) :: pt) ++ '?' :: q := rfl
    have ht3 := takeWhile_append_stop notDelimPath q hPall
      (show notDelimPath '?' = false by decide)
    have ht4 := takeWhile_all notHash hqall
    rw [e0]
    simp only [parseUrl, ht1.1, ht1.2]
    rw [if_pos halpha]
    simp only [ht2.1, ht2.2]
    rw [if_neg hHeF]
    rw [hassoc]
    simp only [ht3.1, ht3.2]
    simp only [ht4.1, ht4.2]
    rw [if_neg (show ¬((('/' : Char) :: pt).isEmpty = true) by simp)]
    rw [hlow1, hlow2]

-- ═══════════════════════════════════════════════════════════════════════════
-- § Claim C9 — query-pair parse/serialize round trip
-- ═══════════════════════════════════════════════════════════════════════════

theorem splitOnAmp_ne_nil (l : List Char) : splitOnAmp l ≠ [] := by
  cases l with
  | nil => simp [splitOnAmp]
  | cons c r =>
    simp only [splitOnAmp]
    split
    · simp
    · split <;> simp

theorem mem_splitOnAmp {q seg : List Char} (hseg : seg ∈ splitOnAmp q) :
    ∀ c ∈ seg, c ∈ q ∧ c ≠ '&' := by
  induction q generalizing seg with
  | nil =>
    simp [splitOnAmp] at hseg
    subst hseg
    intro c hc
    simp at hc
  | cons a r ih =>
    simp only [splitOnAmp] at hseg
    by_cases ha : a = '&'
    · rw [if_pos ha] at hseg
      rcases List.mem_cons.mp hseg with rfl | hmem
      · intro c hc
        simp at hc
      · intro c hc
        rcases ih hmem c hc with ⟨h1, h2⟩
        exact ⟨List.mem_cons_of_mem a h1, h2⟩
    · rw [if_neg ha] at hseg
      cases hsp : splitOnAmp r with
      | nil => exact absurd hsp (splitOnAmp_ne_nil r)
      | cons b rest =>
        rw [hsp] at hseg
        rcases List.mem_cons.mp hseg with rfl | hmem
        · intro c hc
          rcases List.mem_cons.mp hc with rfl | hc'
          · exact ⟨List.mem_cons_self c r, ha⟩
          · have hb : b ∈ splitOnAmp r := by
              rw [hsp]
              exact List.mem_cons_self b rest
            rcases ih hb c hc' with ⟨h1, h2⟩
            exact ⟨List.mem_cons_of_mem a h1, h2⟩
        · have hmem' : seg ∈ splitOnAmp r := by
            rw [hsp]
            exact List.mem_cons_of_mem b hmem
          intro c hc
          rcases ih hmem' c hc with ⟨h1, h2⟩
          exact ⟨List.mem_cons_of_mem a h1, h2⟩

theorem splitOnAmp_no_amp {l : List Char} (h : ∀ c ∈ l, c ≠ '&') :
    splitOnAmp l = [l] := by
  induction l with
  | nil => rfl
  | cons a r ih =>
    have ha := h a (List.mem_cons_self a r)
    have hr := ih fun c hc => h c (List.mem_cons_of_mem a hc)
    simp only [splitOnAmp, if_neg ha, hr]

theorem splitOnAmp_append {a b : List Char} (h : ∀ c ∈ a, c ≠ '&') :
    splitOnAmp (a ++ '&' :: b) = a :: splitOnAmp b := by
  induction a with
  | nil =>
    simp [splitOnAmp]
  | cons x xs ih =>
    have hx := h x (List.mem_cons_self x xs)
    have hxs := ih fun c hc => h c (List.mem_cons_of_mem x hc)
    simp only [List.cons_append, splitOnAmp, if_neg hx]
    have hxs2 : splitOnAmp (xs.append ('&' :: b)) = xs :: splitOnAmp b := hxs
    rw [hxs2]

/-- Every key/value pair parsed from a raw query string has a key free of
`=` and `&` and a value free of `&`, with all characters drawn from the
query string. -/
theorem parseQPairs_props {q : List Char} {kv : List Char × List Char}
    (hkv : kv ∈ parseQPairs q) :
    (∀ c ∈ kv.1, c ≠ '=' ∧ c ≠ '&' ∧ c ∈ q) ∧ (∀ c ∈ kv.2, c ≠ '&' ∧ c ∈ q) := by
  obtain ⟨k, v⟩ := kv
  simp only [parseQPairs, List.mem_filterMap] at hkv
  rcases hkv with ⟨seg, hseg, hcond⟩
  by_cases hemp : seg.isEmpty = true
  · rw [if_pos hemp] at hcond
    cases hcond
  · rw [if_neg hemp] at hcond
    simp only [Option.some.injEq, Prod.mk.injEq] at hcond
    obtain ⟨hk, hv⟩ := hcond
    subst hk
    subst hv
    have hsegp := mem_splitOnAmp hseg
    constructor
    · intro c hc
      have h1 : notEqs c = true := List.mem_takeWhile_imp hc
      have h2 : c ∈ seg := (List.takeWhile_prefix notEqs).sublist.mem hc
      rcases hsegp c h2 with ⟨hq, hamp⟩
      exact ⟨by simpa [notEqs] using h1, hamp, hq⟩
    · intro c hc
      cases hd : seg.dropWhile notEqs with
      | nil =>
        rw [hd] at hc
        simp at hc
      | cons x v' =>
        rw [hd] at hc
        simp only at hc
        have hdc : c ∈ seg.dropWhile notEqs := by
          rw [hd]
          exact List.mem_cons_of_mem x hc
        have h2 : c ∈ seg := (List.dropWhile_suffix notEqs).sublist.mem hdc
        rcases hsegp c h2 with ⟨hq, hamp⟩
        exact ⟨hamp, hq⟩

/-- Every character of a serialized pair list is `=`, `&`, or a character
of one of the keys or values. -/
theorem mem_serializeQPairs {ps : List (List Char × List Char)} {c : Char}
    (hc : c ∈ serializeQPairs ps) :
    c = '=' ∨ c = '&' ∨ ∃ kv ∈ ps, c ∈ kv.1 ∨ c ∈ kv.2 := by
  induction ps with
  | nil => simp [serializeQPairs] at hc
  | cons kv rest ih =>
    obtain ⟨k, v⟩ := kv
    cases rest with
    | nil =>
      simp only [serializeQPairs] at hc
      rcases List.mem_append.mp hc with h1 | h2
      · exact Or.inr (Or.inr ⟨(k, v), by simp, Or.inl h1⟩)
      · rcases List.mem_cons.mp h2 with rfl | h3
        · exact Or.inl rfl
        · exact Or.inr (Or.inr ⟨(k, v), by simp, Or.inr h3⟩)
    | cons kv2 rest2 =>
      simp only [serializeQPairs] at hc
      rcases List.mem_append.mp hc with h1 | h2
      · rcases List.mem_append.mp h1 with ha | hb
        · exact Or.inr (Or.inr ⟨(k, v), by simp, Or.inl ha⟩)
        · rcases List.mem_cons.mp hb with rfl | hb2
          · exact Or.inl rfl
          · exact Or.inr (Or.inr ⟨(k, v), by simp, Or.inr hb2⟩)
      · rcases List.mem_cons.mp h2 with rfl | h3
        · exact Or.inr (Or.inl rfl)
        · rcases ih h3 with h | h | ⟨kv', hkv', hor⟩
          · exact Or.inl h
          · exact Or.inr (Or.inl h)
          · exact Or.inr (Or.inr ⟨kv', List.mem_cons_of_mem (k, v) hkv', hor⟩)

/-- Parsing a serialized pair list recovers the pairs, provided keys are free
of `=` and `&` and values are free of `&`. -/
theorem parseQPairs_serialize (ps : List (List Char × List Char))
    (h : ∀ kv ∈ ps, (∀ c ∈ kv.1, c ≠ '=' ∧ c ≠ '&') ∧ (∀ c ∈ kv.2, c ≠ '&')) :
    parseQPairs (serializeQPairs ps) = ps := by
  induction ps with
  | nil => rfl
  | cons kv rest ih =>
    obtain ⟨k, v⟩ := kv
    have hk := (h (k, v) (List.mem_cons_self (k, v) rest)).1
    have hv := (h (k, v) (List.mem_cons_self (k, v) rest)).2
    have hnoamp : ∀ c ∈ k ++ '=' :: v, c ≠ '&' := by
      intro c hc
      rcases List.mem_append.mp hc with hck | hcv
      · exact (hk c hck).2
      · rcases List.mem_cons.mp hcv with rfl | hcv'
        · decide
        · exact hv c hcv'
    have hne2 : ¬((k ++ '=' :: v).isEmpty = true) := by
      cases k <;> simp
    have hkall : ∀ c ∈ k, notEqs c = true := fun c hc => by
      simp [notEqs, (hk c hc).1]
    have htk := takeWhile_append_stop notEqs v hkall (show notEqs '=' = false by decide)
    cases rest with
    | nil =>
      simp only [serializeQPairs]
      rw [parseQPairs, splitOnAmp_no_amp hnoamp]
      simp only [List.filterMap_cons, List.filterMap_nil]
      rw [if_neg hne2]
      rw [htk.1, htk.2]
    | cons kv2 rest2 =>
      have ihr := ih fun x hx => h x (List.mem_cons_of_mem (k, v) hx)
      simp only [serializeQPairs]
      rw [parseQPairs, splitOnAmp_append hnoamp]
      simp only [List.filterMap_cons]
      rw [if_neg hne2]
      rw [htk.1, htk.2]
      rw [show List.filterMap
        (fun seg => if seg.isEmpty = true then none
          else some (seg.takeWhile notEqs,
            match seg.dropWhile notEqs with
            | _ :: v => v
            | [] => []))
        (splitOnAmp (serializeQPairs (kv2 :: rest2))) =
          parseQPairs (serializeQPairs (kv2 :: rest2)) from rfl]
      rw [ihr]

theorem any_eq_false_of {α : Type} {l : List α} {f : α → Bool}
    (h : ∀ x ∈ l, f x = false) : l.any f = false := by
  induction l with
  | nil => rfl
  | cons a t ih =>
    simp [List.any_cons, h a (List.mem_cons_self a t),
      ih fun x hx => h x (List.mem_cons_of_mem a hx)]

theorem all_false_of_any_false {α : Type} {l : List α} {f : α → Bool}
    (h : l.any f = false) : ∀ x ∈ l, f x = false := by
  intro x hx
  cases hfx : f x
  · rfl
  · exact absurd (List.any_eq_true.mpr ⟨x, hx, hfx⟩) (by simp [h])

/-- When no query pair has a deny-listed key and the fragment is already
empty, `normalizeUrl` keeps the raw query and re-serializes the same URL. -/
theorem normalizeUrl_of_no_delete {v : String} {pv : ParsedUrl}
    (hparse : parseUrl v = some pv)
    (hfrag : pv.fragment = none)
    (hnotrack : (parseQPairs (pv.query.getD [])).any
      (fun kv => isTrackingKey kv.1) = false) :
    normalizeUrl v = String.mk (serializeUrl pv) := by
  obtain ⟨A, B, C, D, E⟩ := pv
  dsimp only at hfrag hnotrack
  subst hfrag
  simp only [normalizeUrl, hparse]
  rw [if_neg (by simp [hnotrack])]

/-- Claim C9: for every input that parses as a URL, `normalizeUrl` removes
the fragment and exactly the query parameters whose lowercased key is in the
tracking-parameter deny-list (preserving all other pairs, in order); for
unparseable input it returns the input unchanged; it is idempotent on
parseable input; and on the spec's scenario URL it keeps `id=5` while
dropping `utm_source` and the `#top` fragment. -/
theorem normalizeUrl_spec (u : String) :
    (parseUrl u = none → normalizeUrl u = u) ∧
    (∀ p : ParsedUrl, parseUrl u = some p →
      ∃ p' : ParsedUrl, parseUrl (normalizeUrl u) = some p' ∧
        p'.scheme = p.scheme ∧ p'.host = p.host ∧ p'.path = p.path ∧
        p'.fragment = none ∧
        parseQPairs (p'.query.getD []) =
          (parseQPairs (p.query.getD [])).filter (fun kv => !isTrackingKey kv.1) ∧
        normalizeUrl (normalizeUrl u) = normalizeUrl u) ∧
    normalizeUrl "https://example.com/a?utm_source=x&id=5#top" =
      "https://example.com/a?id=5" := by
  refine ⟨?_, ?_, by decide⟩
  · intro h
    simp only [normalizeUrl, h]
  · intro p hp
    obtain ⟨⟨⟨hSne, hSall⟩, hSfix, hShead⟩, ⟨⟨hHne, hHall⟩, hHfix⟩,
      ⟨hPhead, hPall⟩, hQ⟩ := parseUrl_inv hp
    have hqchars : ∀ c ∈ p.query.getD [], c ≠ '#' := by
      cases hq : p.query with
      | none =>
        intro c hc
        simp at hc
      | some q =>
        intro c hc
        exact hQ q hq c (by simpa using hc)
    have hprops : ∀ kv ∈ (parseQPairs (p.query.getD [])).filter
        (fun kv => !isTrackingKey kv.1),
        (∀ c ∈ kv.1, c ≠ '=' ∧ c ≠ '&') ∧ (∀ c ∈ kv.2, c ≠ '&') := by
      intro kv hkv
      have hp2 := parseQPairs_props (List.mem_filter.mp hkv).1
      exact ⟨fun c hc => ⟨(hp2.1 c hc).1, (hp2.1 c hc).2.1⟩,
        fun c hc => (hp2.2 c hc).1⟩
    have hkeptHash : ∀ c ∈ serializeQPairs ((parseQPairs (p.query.getD [])).filter
        (fun kv => !isTrackingKey kv.1)), c ≠ '#' := by
      intro c hc
      rcases mem_serializeQPairs hc with rfl | rfl | ⟨kv, hkv, hor⟩
      · decide
      · decide
      · have hp2 := parseQPairs_props (List.mem_filter.mp hkv).1
        rcases hor with hck | hcv
        · exact hqchars c (hp2.1 c hck).2.2
        · exact hqchars c (hp2.2 c hcv).2
    have hkeptNoTrack : ∀ kv ∈ (parseQPairs (p.query.getD [])).filter
        (fun kv => !isTrackingKey kv.1),
        (fun kv : List Char × List Char => isTrackingKey kv.1) kv = false := by
      intro kv hkv
      have := (List.mem_filter.mp hkv).2
      simpa using this
    by_cases hdel : (parseQPairs (p.query.getD [])).any
      (fun kv => isTrackingKey kv.1) = true
    · by_cases hke : ((parseQPairs (p.query.getD [])).filter
        (fun kv => !isTrackingKey kv.1)).isEmpty = true
      · have hkeptnil : (parseQPairs (p.query.getD [])).filter
            (fun kv => !isTrackingKey kv.1) = [] := isEmpty_true_iff.mp hke
        have hnorm : normalizeUrl u =
            String.mk (serializeUrl { p with query := none, fragment := none }) := by
          simp only [normalizeUrl, hp]
          rw [if_pos hdel, if_pos hke]
        have hround := parseUrl_serialize
          (p := { p with query := none, fragment := none })
          hSne hSall hShead hSfix hHne hHall hHfix hPhead hPall
          (fun q hq => by cases hq) rfl
        refine ⟨{ p with query := none, fragment := none }, ?_, rfl, rfl, rfl, rfl,
          ?_, ?_⟩
        · rw [hnorm]
          exact hround
        · rw [hkeptnil]
          rfl
        · rw [hnorm]
          exact normalizeUrl_of_no_delete hround rfl rfl
      · have hrt : parseQPairs (serializeQPairs ((parseQPairs (p.query.getD [])).filter
            (fun kv => !isTrackingKey kv.1))) =
            (parseQPairs (p.query.getD [])).filter (fun kv => !isTrackingKey kv.1) :=
          parseQPairs_serialize _ hprops
        have hnorm : normalizeUrl u =
            String.mk (serializeUrl { p with
              query := some (serializeQPairs ((parseQPairs (p.query.getD [])).filter
                (fun kv => !isTrackingKey kv.1))),
              fragment := none }) := by
          simp only [normalizeUrl, hp]
          rw [if_pos hdel, if_neg hke]
        have hQN : ∀ q, (some (serializeQPairs ((parseQPairs (p.query.getD [])).filter
            (fun kv => !isTrackingKey kv.1))) : Option (List Char)) = some q →
            ∀ c ∈ q, c ≠ '#' := by
          intro q hq
          have hq' := Option.some.inj hq
          subst hq'
          exact hkeptHash
        have hround := parseUrl_serialize
          (p := { p with
            query := some (serializeQPairs ((parseQPairs (p.query.getD [])).filter
              (fun kv => !isTrackingKey kv.1))),
            fragment := none })
          hSne hSall hShead hSfix hHne hHall hHfix hPhead hPall hQN rfl
        have hany2 : (parseQPairs (serializeQPairs ((parseQPairs (p.query.getD [])).filter
            (fun kv => !isTrackingKey kv.1)))).any
            (fun kv => isTrackingKey kv.1) = false := by
          rw [hrt]
          exact any_eq_false_of hkeptNoTrack
        refine ⟨{ p with
            query := some (serializeQPairs ((parseQPairs (p.query.getD [])).filter
              (fun kv => !isTrackingKey kv.1))),
            fragment := none }, ?_, rfl, rfl, rfl, rfl, ?_, ?_⟩
        · rw [hnorm]
          exact hround
        · exact hrt
        · rw [hnorm]
          exact normalizeUrl_of_no_delete hround rfl hany2
    · have hdelF : (parseQPairs (p.query.getD [])).any
          (fun kv => isTrackingKey kv.1) = false := by
        revert hdel
        cases (parseQPairs (p.query.getD [])).any (fun kv => isTrackingKey kv.1) <;> simp
      have hnorm : normalizeUrl u =
          String.mk (serializeUrl { p with fragment := none }) := by
        simp only [normalizeUrl, hp]
        rw [if_neg hdel]
      have hround := parseUrl_serialize (p := { p with fragment := none })
        hSne hSall hShead hSfix hHne hHall hHfix hPhead hPall hQ rfl
      refine ⟨{ p with fragment := none }, ?_, rfl, rfl, rfl, rfl, ?_, ?_⟩
      · rw [hnorm]
        exact hround
      · have hall : ∀ kv ∈ parseQPairs (p.query.getD []),
            (fun kv : List Char × List Char => !isTrackingKey kv.1) kv = true := by
          intro kv hkv
          have := all_false_of_any_false hdelF kv hkv
          simp at this
          simp [this]
        exact (List.filter_eq_self.mpr hall).symm
      · rw [hnorm]
        exact normalizeUrl_of_no_delete hround rfl hdelF

/-- Concrete run of `normalizeUrl_spec` on the spec's scenario URL:
tracking parameter and fragment are removed and the result is a fixed point
of `normalizeUrl`. -/
theorem normalizeUrl_spec_witness :
    normalizeUrl "https://example.com/a?utm_source=x&id=5#top" =
      "https://example.com/a?id=5" ∧
    normalizeUrl (normalizeUrl "https://example.com/a?utm_source=x&id=5#top") =
      normalizeUrl "https://example.com/a?utm_source=x&id=5#top" := by
  constructor
  · exact (normalizeUrl_spec "https://example.com/a?utm_source=x&id=5#top").2.2
  · obtain ⟨p', h1, h2, h3, h4, h5, h6, h7⟩ :=
      (normalizeUrl_spec "https://example.com/a?utm_source=x&id=5#top").2.1
        ⟨"https".data, "example.com".data, "/a".data,
          some "utm_source=x&id=5".data, some "top".data⟩ (by decide)
    exact h7
